import Mathlib

set_option maxHeartbeats 2000000
set_option maxRecDepth 10000

/-!
Verification of the Markdown-to-PDF layout engine in
`src/Client/src/utils/pdf.ts` (the repository's core subsystem).

The code is shallowly embedded: the mutable jsPDF drawing surface becomes an
explicit state record plus a trace of emitted drawing events, the DOM tree
becomes an inductive type, and the JS string transforms become functions on
`List Char`.  Coordinates are `ℚ` (the arithmetic involved is exact decimal
arithmetic on JS doubles: sums and products of small decimals, no rounding
occurs at these magnitudes).
-/

/-- JS `String.prototype.trim` whitespace (the code points relevant here;
the full JS set also contains further exotic Unicode spaces that never occur
in the claims). -/
def isJsSpace (c : Char) : Bool :=
  c == ' ' || c == '\t' || c == '\n' || c == '\r' || c == '\x0b' ||
  c == '\x0c' || c == ' ' || c == '﻿'

/-- `trim()` on a character list. -/
def jsTrimL (s : List Char) : List Char :=
  ((s.dropWhile isJsSpace).reverse.dropWhile isJsSpace).reverse

/-- JS `String.prototype.trim`. -/
def jsTrim (s : String) : String :=
  String.mk (jsTrimL s.data)

/-- The `LATEX_TO_UNICODE` table from pdf.ts lines 17-28, in object insertion
order (the order `Object.entries` iterates string keys). -/
def LATEX_TO_UNICODE : List (String × String) :=
  [("\\rightarrow", "→"), ("\\leftarrow", "←"), ("\\uparrow", "↑"), ("\\downarrow", "↓"),
   ("\\leftrightarrow", "↔"), ("\\Rightarrow", "⇒"), ("\\Leftarrow", "⇐"), ("\\to", "→"),
   ("\\leq", "≤"), ("\\geq", "≥"), ("\\neq", "≠"), ("\\approx", "≈"),
   ("\\alpha", "α"), ("\\beta", "β"), ("\\gamma", "γ"), ("\\delta", "δ"),
   ("\\theta", "θ"), ("\\lambda", "λ"), ("\\mu", "μ"), ("\\pi", "π"), ("\\sigma", "σ"),
   ("\\phi", "φ"), ("\\omega", "ω"), ("\\Sigma", "Σ"), ("\\Omega", "Ω"),
   ("\\star", "★"), ("\\square", "□"), ("\\bullet", "•"), ("\\circ", "○"),
   ("\\times", "×"), ("\\div", "÷"), ("\\pm", "±"), ("\\infty", "∞"),
   ("\\forall", "∀"), ("\\exists", "∃"), ("\\in", "∈"), ("\\sum", "Σ"),
   ("\\checkmark", "✓"), ("\\ldots", "…"), ("\\degree", "°")]

/-- Global literal replacement: JS `str.replace(new RegExp(escapedLiteral, 'g'), rep)`
for a non-empty literal pattern — leftmost match, non-overlapping, the
replacement text is not rescanned. -/
def replaceAll (pat rep : List Char) : List Char → List Char
  | [] => []
  | c :: rest =>
    if pat ≠ [] ∧ pat.isPrefixOf (c :: rest) then
      rep ++ replaceAll pat rep ((c :: rest).drop pat.length)
    else
      c :: replaceAll pat rep rest
termination_by s => s.length
decreasing_by
  · rename_i h
    simp only [List.length_drop, List.length_cons]
    have hp : pat.length ≥ 1 := by
      cases pat with
      | nil => exact absurd rfl h.1
      | cons a l => simp
    omega
  · simp

/-- The loop `for (const [cmd, unicode] of Object.entries(LATEX_TO_UNICODE))`
(pdf.ts lines 33-35): every table entry applied as a global substitution, in
table order. -/
def applyTable (s : List Char) : List Char :=
  LATEX_TO_UNICODE.foldl (fun acc p => replaceAll p.1.data p.2.data acc) s

/-- `result.replace(/\\[a-zA-Z]+/g, '')` — strip each backslash followed by a
maximal non-empty run of ASCII letters. -/
def stripBackslashWords : List Char → List Char
  | [] => []
  | c :: rest =>
    if c = '\\' ∧ (rest.takeWhile Char.isAlpha) ≠ [] then
      stripBackslashWords (rest.drop (rest.takeWhile Char.isAlpha).length)
    else
      c :: stripBackslashWords rest
termination_by s => s.length
decreasing_by
  · simp only [List.length_drop, List.length_cons]
    omega
  · simp

/-- `.replace(/[{}]/g, '')`. -/
def removeBraces (s : List Char) : List Char :=
  s.filter (fun c => ¬(c = '\x7b' ∨ c = '\x7d'))

/-- The body of the replacement callback in `convertLatexToUnicode`
(pdf.ts lines 31-37), applied to one captured `$...$` span. -/
def processSpan (latex : List Char) : List Char :=
  let result := jsTrimL latex
  let result := applyTable result
  let final := jsTrimL (removeBraces (stripBackslashWords result))
  if final = [] then latex else final

/-- The scan of `text.replace(/\$([^$]+)\$/g, cb)`: leftmost non-overlapping
matches of a dollar, a non-empty run of non-dollar characters, and a closing
dollar; unmatched text is copied through. -/
def convLoop : List Char → List Char
  | [] => []
  | c :: rest =>
    if c = '$' then
      let body := rest.takeWhile (fun d => d ≠ '$')
      if body ≠ [] ∧ rest.drop body.length ≠ [] then
        processSpan body ++ convLoop (rest.drop (body.length + 1))
      else
        c :: convLoop rest
    else
      c :: convLoop rest
termination_by s => s.length
decreasing_by
  · simp only [List.length_drop, List.length_cons]
    omega
  · simp
  · simp

/-- `convertLatexToUnicode` (pdf.ts lines 30-38). -/
def convertLatexToUnicode (text : String) : String :=
  String.mk (convLoop text.data)

/-- The default user-facing message of `EmptyMarkdownError` (pdf.ts line 10). -/
def defaultEmptyMessage : String := "No content to download. Add some notes first!"

/-- `EmptyMarkdownError` (pdf.ts lines 9-14): an `Error` subclass carrying a
`name` and a `message`. -/
structure EmptyMarkdownError where
  name : String
  message : String
deriving DecidableEq

/-- DOM nodes as produced by `DOMParser` on sanitized HTML: element nodes with
a (lower-case) tag, an attribute list and ordered children, and text nodes. -/
inductive DNode where
  | text (s : String)
  | elem (tag : String) (attrs : List (String × String)) (children : List DNode)

mutual
/-- `node.textContent` for this tree model: the concatenation of all descendant
text nodes in document order. -/
def textContent : DNode → String
  | .text s => s
  | .elem _ _ cs => textContentL cs
def textContentL : List DNode → String
  | [] => ""
  | c :: cs => textContent c ++ textContentL cs
end

mutual
/-- `extractText` (pdf.ts lines 62-76).  `parentTag` is the tag of the node's
parent element (`el.parentElement`), known at every call site of the walk. -/
def extractText (parentTag : String) (n : DNode) (depth : ℕ) : String :=
  if depth > 50 then textContent n
  else match n with
  | .text s => s
  | .elem tag attrs cs =>
    if tag = "code" ∧ parentTag ≠ "pre" then
      "`" ++ textContent (.elem tag attrs cs) ++ "`"
    else
      extractTextL tag cs (depth + 1)
def extractTextL (parentTag : String) (ns : List DNode) (depth : ℕ) : String :=
  match ns with
  | [] => ""
  | c :: cs => extractText parentTag c depth ++ extractTextL parentTag cs depth
end

mutual
/-- All descendant element nodes in document order (the node set
`querySelectorAll` selects from). -/
def selfDesc : DNode → List DNode
  | .text _ => []
  | .elem t a cs => DNode.elem t a cs :: descList cs
def descList : List DNode → List DNode
  | [] => []
  | c :: cs => selfDesc c ++ descList cs
end

/-- Descendant elements of a node, excluding the node itself. -/
def descendants : DNode → List DNode
  | .text _ => []
  | .elem _ _ cs => descList cs

/-- The tag of an element node. -/
def tagOf : DNode → Option String
  | .text _ => none
  | .elem t _ _ => some t

/-- `el.hasAttribute name`. -/
def hasAttr (name : String) : DNode → Bool
  | .text _ => false
  | .elem _ attrs _ => attrs.any (fun p => p.1 == name)

/-- Does the element match the selector `input[type="checkbox"]`? -/
def isCheckboxInput : DNode → Bool
  | .text _ => false
  | .elem t attrs _ => t == "input" && attrs.any (fun p => p.1 == "type" && p.2 == "checkbox")

/-- The drawing surface collaborator (jsPDF): fixed page dimensions plus the
text-metrics function `splitTextToSize`, which wraps a string to a maximum
width under the currently selected font family / style / size. -/
structure Surface where
  pageWidth : ℚ
  pageHeight : ℚ
  wrap : String → String → ℚ → String → ℚ → List String

/-- One drawing operation emitted onto the surface.  Color / font / width
fields record the surface's mutable style state at the moment of emission. -/
inductive Ev where
  | addPage
  | text (str : String) (x y : ℚ) (family style : String) (size : ℚ) (color : ℕ × ℕ × ℕ)
  | line (x1 y1 x2 y2 : ℚ) (color : ℕ × ℕ × ℕ) (width : ℚ)
  | rect (x y w h : ℚ) (fill : Bool) (color : ℕ × ℕ × ℕ)
  | roundedRect (x y w h rx ry : ℚ) (fill : Bool) (color : ℕ × ℕ × ℕ)
deriving DecidableEq

/-- The mutable state of one `renderToPdf` call: the layout cursor `y`, the
list bookkeeping (`listDepth`, `listCounters`), and the surface's current
style registers. -/
structure St where
  y : ℚ
  listDepth : ℤ
  listCounters : List ℕ
  fontFamily : String
  fontStyle : String
  fontSize : ℚ
  textColor : ℕ × ℕ × ℕ
  fillColor : ℕ × ℕ × ℕ
  drawColor : ℕ × ℕ × ℕ
  lineWidth : ℚ
deriving DecidableEq

/-- `MARGIN` (pdf.ts line 52). -/
def MARGIN : ℚ := 50

def FONT_SIZE_H1 : ℚ := 24
def FONT_SIZE_H2 : ℚ := 18
def FONT_SIZE_H3 : ℚ := 14
def FONT_SIZE_H4 : ℚ := 12
def FONT_SIZE_BODY : ℚ := 11
def FONT_SIZE_CODE : ℚ := 10

/-- `getLineHeight` (pdf.ts lines 100-102): 1.4 × font size. -/
def getLineHeight (fontSize : ℚ) : ℚ := fontSize * (7/5)

/-- `addSpace` (pdf.ts lines 105-107). -/
def addSpace (points : ℚ) (s : St) : St := { s with y := s.y + points }

/-- `checkPageBreak` (pdf.ts lines 92-97): if the cursor plus the needed
height would pass `pageHeight - MARGIN`, append a page and reset the cursor
to the top margin. -/
def checkPageBreak (surf : Surface) (neededHeight : ℚ) (s : St) : St × List Ev :=
  if s.y + neededHeight > surf.pageHeight - MARGIN then
    ({ s with y := MARGIN }, [Ev.addPage])
  else
    (s, [])

/-- Options of `renderText` (pdf.ts lines 110-116); `pfx` models the option
named after the glyph drawn before the first line. -/
structure TextOpts where
  bold : Bool := false
  italic : Bool := false
  indent : ℚ := 0
  pfx : String := ""
  color : ℕ × ℕ × ℕ := (0, 0, 0)

/-- The line loop of `renderText` (pdf.ts lines 142-146): each wrapped line is
re-checked against the page bottom, drawn, and the cursor advanced. -/
def renderLines (surf : Surface) (lineHeight textX : ℚ) : List String → St → St × List Ev
  | [], s => (s, [])
  | l :: ls, s =>
    let r1 := checkPageBreak surf lineHeight s
    let s1 := r1.1
    let ev := Ev.text l textX s1.y s1.fontFamily s1.fontStyle s1.fontSize s1.textColor
    let s2 := { s1 with y := s1.y + lineHeight }
    let r3 := renderLines surf lineHeight textX ls s2
    (r3.1, r1.2 ++ [ev] ++ r3.2)

/-- `renderText` (pdf.ts lines 110-149). -/
def renderText (surf : Surface) (text : String) (fontSize : ℚ) (opts : TextOpts) (s : St) : St × List Ev :=
  let fStyle := if opts.bold then (if opts.italic then "bolditalic" else "bold")
                else (if opts.italic then "italic" else "normal")
  let s0 : St := { s with fontSize := fontSize, fontFamily := "helvetica",
                          fontStyle := fStyle, textColor := opts.color }
  let lineHeight := getLineHeight fontSize
  let x := MARGIN + opts.indent
  let availableWidth := (surf.pageWidth - MARGIN * 2) - opts.indent
  let rp : St × List Ev :=
    if opts.pfx ≠ "" then
      let r1 := checkPageBreak surf lineHeight s0
      (r1.1, r1.2 ++ [Ev.text opts.pfx x r1.1.y r1.1.fontFamily r1.1.fontStyle r1.1.fontSize r1.1.textColor])
    else (s0, [])
  let textIndent : ℚ := if opts.pfx ≠ "" then 15 else 0
  let textWidth := availableWidth - textIndent
  let textX := x + textIndent
  let lines := surf.wrap rp.1.fontFamily rp.1.fontStyle fontSize text textWidth
  let rl := renderLines surf lineHeight textX lines rp.1
  ({ rl.1 with textColor := (0, 0, 0) }, rp.2 ++ rl.2)

/-- `listCounters[listCounters.length - 1]++` on a JS array: increments the
last element; on an empty array the write goes to property `-1` and the array
stays empty. -/
def incLast : List ℕ → List ℕ
  | [] => []
  | [x] => [x + 1]
  | x :: y :: rest => x :: incLast (y :: rest)

/-- The string JS interpolates for the just-incremented counter: the number,
or `NaN` when the array was empty (reading index `-1` gives `undefined` and
`undefined + 1` is `NaN`). -/
def lastCounterStr : List ℕ → String
  | [] => "NaN"
  | [x] => toString x
  | _ :: y :: rest => lastCounterStr (y :: rest)

/-- The direct-text pass of the `li` case (pdf.ts lines 225-235): text node
children contribute their content, element children other than `ul`/`ol`
contribute `extractText` (their parent being the `li`). -/
def directTextOf : List DNode → String
  | [] => ""
  | .text s :: cs => s ++ directTextOf cs
  | .elem t a cc :: cs =>
    (if t ≠ "ul" ∧ t ≠ "ol" then extractText "li" (.elem t a cc) 0 else "") ++ directTextOf cs

/-- Accumulating scan for `split('\n')`. -/
def splitNlAux (cur : List Char) : List Char → List String
  | [] => [String.mk cur.reverse]
  | c :: rest =>
    if c = '\n' then String.mk cur.reverse :: splitNlAux [] rest
    else splitNlAux (c :: cur) rest

/-- JS `code.split('\n')` (always at least one segment). -/
def splitNl (s : String) : List String := splitNlAux [] s.data

/-- `cells.length || 1` (pdf.ts line 302). -/
def jsOrOne (n : ℕ) : ℕ := if n = 0 then 1 else n

/-- The `th, td` descendants of a row (`row.querySelectorAll('th, td')`). -/
def cellsOf (row : DNode) : List DNode :=
  (descendants row).filter (fun d => tagOf d == some "th" || tagOf d == some "td")

/-- The per-line loop of the `pre` case (pdf.ts lines 286-290): check, draw
(an empty line drawn as a single space), advance. -/
def preLines (surf : Surface) (lineHeight : ℚ) : List String → St → St × List Ev
  | [], s => (s, [])
  | l :: ls, s =>
    let r1 := checkPageBreak surf lineHeight s
    let s1 := r1.1
    let ev := Ev.text (if l = "" then " " else l) (MARGIN + 10) s1.y s1.fontFamily s1.fontStyle s1.fontSize s1.textColor
    let s2 := { s1 with y := s1.y + lineHeight }
    let r3 := preLines surf lineHeight ls s2
    (r3.1, r1.2 ++ [ev] ++ r3.2)

/-- The `cells.forEach((cell, i) => ...)` loop of the table case
(pdf.ts lines 318-324): select font, truncate the cell text to the first
wrapped line, draw it centered in the row band. -/
def tableCells (surf : Surface) (colWidth rowHeight : ℚ) (isHeader : Bool) : List DNode → ℕ → St → St × List Ev
  | [], _, s => (s, [])
  | cell :: rest, i, s =>
    let s0 : St := { s with fontSize := FONT_SIZE_BODY, fontFamily := "helvetica",
                            fontStyle := if isHeader then "bold" else "normal" }
    let t := jsTrim (extractText "tr" cell 0)
    let truncated := (surf.wrap s0.fontFamily s0.fontStyle FONT_SIZE_BODY t (colWidth - 10)).headD ""
    let ev := Ev.text truncated (MARGIN + (i : ℚ) * colWidth + 5) (s0.y + rowHeight / 2 + 3)
                s0.fontFamily s0.fontStyle s0.fontSize s0.textColor
    let r2 := tableCells surf colWidth rowHeight isHeader rest (i + 1) s0
    (r2.1, [ev] ++ r2.2)

/-- The per-column border strokes `for (let i = 1; i < cols; i++)`
(pdf.ts lines 330-332). -/
def colLines (s : St) (cols : ℕ) (colWidth rowHeight : ℚ) : List Ev :=
  ((List.range cols).drop 1).map (fun i =>
    Ev.line (MARGIN + (i : ℚ) * colWidth) s.y (MARGIN + (i : ℚ) * colWidth) (s.y + rowHeight)
      s.drawColor s.lineWidth)

/-- One iteration of the row loop of the table case (pdf.ts lines 306-335). -/
def tableRow (surf : Surface) (colWidth rowHeight : ℚ) (cols : ℕ) (row : DNode) (s : St) : St × List Ev :=
  let r1 := checkPageBreak surf rowHeight s
  let s1 := r1.1
  let cells := cellsOf row
  let isHeader := (descendants row).any (fun d => tagOf d == some "th")
  let rh : St × List Ev :=
    if isHeader then
      let sh : St := { s1 with fillColor := (240, 240, 240) }
      (sh, [Ev.rect MARGIN sh.y (surf.pageWidth - MARGIN * 2) rowHeight true sh.fillColor])
    else (s1, [])
  let r3 := tableCells surf colWidth rowHeight isHeader cells 0 rh.1
  let s4 : St := { r3.1 with drawColor := (200, 200, 200), lineWidth := 1/2 }
  let e4 := [Ev.rect MARGIN s4.y (surf.pageWidth - MARGIN * 2) rowHeight false s4.drawColor]
  let e5 := colLines s4 cols colWidth rowHeight
  let s5 : St := { s4 with y := s4.y + rowHeight }
  (s5, r1.2 ++ rh.2 ++ r3.2 ++ e4 ++ e5)

/-- The `for (const row of rows)` loop (pdf.ts lines 306-335). -/
def tableRows (surf : Surface) (colWidth rowHeight : ℚ) (cols : ℕ) : List DNode → St → St × List Ev
  | [], s => (s, [])
  | row :: rest, s =>
    let r1 := tableRow surf colWidth rowHeight cols row s
    let r2 := tableRows surf colWidth rowHeight cols rest r1.1
    (r2.1, r1.2 ++ r2.2)

mutual
/-- `processNode` (pdf.ts lines 151-357).  `parentTag` is the tag of the
element whose child loop invoked this call (`node.parentElement`); top-level
nodes are children of the wrapper `div`. -/
def processNode (surf : Surface) (parentTag : String) (n : DNode) (s : St) : St × List Ev :=
  match n with
  | .text _ => (s, [])
  | .elem tag attrs children =>
    if tag = "h1" then
      let s := addSpace 20 s
      let t := jsTrim (extractText parentTag (.elem tag attrs children) 0)
      let r := if t ≠ "" then renderText surf t FONT_SIZE_H1 { bold := true } s else (s, [])
      (addSpace 10 r.1, r.2)
    else if tag = "h2" then
      let s := addSpace 16 s
      let t := jsTrim (extractText parentTag (.elem tag attrs children) 0)
      let r := if t ≠ "" then renderText surf t FONT_SIZE_H2 { bold := true } s else (s, [])
      (addSpace 8 r.1, r.2)
    else if tag = "h3" then
      let s := addSpace 12 s
      let t := jsTrim (extractText parentTag (.elem tag attrs children) 0)
      let r := if t ≠ "" then renderText surf t FONT_SIZE_H3 { bold := true } s else (s, [])
      (addSpace 6 r.1, r.2)
    else if tag = "h4" ∨ tag = "h5" ∨ tag = "h6" then
      let s := addSpace 10 s
      let t := jsTrim (extractText parentTag (.elem tag attrs children) 0)
      let r := if t ≠ "" then renderText surf t FONT_SIZE_H4 { bold := true } s else (s, [])
      (addSpace 4 r.1, r.2)
    else if tag = "p" then
      let t := jsTrim (extractText parentTag (.elem tag attrs children) 0)
      if t ≠ "" then
        let indent : ℚ := (s.listDepth : ℚ) * 20
        let r := renderText surf t FONT_SIZE_BODY { indent := indent } s
        (addSpace 8 r.1, r.2)
      else (s, [])
    else if tag = "ul" ∨ tag = "ol" then
      let s1 : St := { s with listDepth := s.listDepth + 1, listCounters := s.listCounters ++ [0] }
      let r := processChildren surf tag children s1
      let s2 : St := { r.1 with listCounters := r.1.listCounters.dropLast, listDepth := r.1.listDepth - 1 }
      let s3 := if s2.listDepth = 0 then addSpace 6 s2 else s2
      (s3, r.2)
    else if tag = "li" then
      let counters := incLast s.listCounters
      let s1 : St := { s with listCounters := counters }
      let isOrdered := parentTag = "ol"
      let checkbox := (descendants (.elem tag attrs children)).find? isCheckboxInput
      let pfx := match checkbox with
        | some cb => if hasAttr "checked" cb then "☑" else "☐"
        | none => if isOrdered then lastCounterStr counters ++ "." else "•"
      let directText := directTextOf children
      let indent : ℚ := ((s1.listDepth : ℚ) - 1) * 20
      let r1 := if jsTrim directText ≠ "" then
          renderText surf (jsTrim directText) FONT_SIZE_BODY { indent := indent, pfx := pfx } s1
        else (s1, [])
      let r2 := processNested surf children r1.1
      (r2.1, r1.2 ++ r2.2)
    else if tag = "blockquote" then
      let t := jsTrim (extractText parentTag (.elem tag attrs children) 0)
      if t ≠ "" then
        let s1 := addSpace 8 s
        let startY := s1.y
        let r := renderText surf t FONT_SIZE_BODY { italic := true, indent := 20, color := (100, 100, 100) } s1
        let s2 : St := { r.1 with drawColor := (180, 180, 180), lineWidth := 3 }
        let ev := Ev.line (MARGIN + 8) (startY - 10) (MARGIN + 8) (s2.y - 5) s2.drawColor s2.lineWidth
        (addSpace 8 s2, r.2 ++ [ev])
      else (s, [])
    else if tag = "pre" then
      let code := jsTrim (textContent (.elem tag attrs children))
      if code ≠ "" then
        let s1 := addSpace 8 s
        let lines := splitNl code
        let lineHeight := getLineHeight FONT_SIZE_CODE
        let blockHeight : ℚ := (lines.length : ℚ) * lineHeight + 20
        let r1 := checkPageBreak surf (min blockHeight 100) s1
        let s2 : St := { r1.1 with fillColor := (245, 245, 245) }
        let ev := Ev.roundedRect MARGIN (s2.y - 5) (surf.pageWidth - MARGIN * 2) blockHeight 4 4 true s2.fillColor
        let s3 : St := { s2 with fontFamily := "courier", fontStyle := "normal", fontSize := FONT_SIZE_CODE }
        let s4 : St := { s3 with y := s3.y + 10 }
        let r2 := preLines surf lineHeight lines s4
        let s5 : St := { r2.1 with y := r2.1.y + 10 }
        (addSpace 8 s5, r1.2 ++ [ev] ++ r2.2)
      else (s, [])
    else if tag = "table" then
      let s1 := addSpace 10 s
      let rows := (descendants (.elem tag attrs children)).filter (fun d => tagOf d == some "tr")
      match rows with
      | [] => (s1, [])
      | r0 :: _ =>
        let cols := jsOrOne (cellsOf r0).length
        let contentWidth := surf.pageWidth - MARGIN * 2
        let colWidth := contentWidth / (cols : ℚ)
        let rowHeight := getLineHeight FONT_SIZE_BODY + 12
        let r := tableRows surf colWidth rowHeight cols rows s1
        (addSpace 10 r.1, r.2)
    else if tag = "hr" then
      let s1 := addSpace 15 s
      let r1 := checkPageBreak surf 5 s1
      let s2 : St := { r1.1 with drawColor := (200, 200, 200), lineWidth := 1 }
      let ev := Ev.line MARGIN s2.y (surf.pageWidth - MARGIN) s2.y s2.drawColor s2.lineWidth
      (addSpace 15 s2, r1.2 ++ [ev])
    else
      processChildren surf tag children s

/-- The `node.childNodes.forEach` loops that recurse into element children
(ul/ol case, unknown-element case, and the top-level walk). -/
def processChildren (surf : Surface) (parentTag : String) (ns : List DNode) (s : St) : St × List Ev :=
  match ns with
  | [] => (s, [])
  | c :: cs =>
    let r1 := match c with
      | .text _ => (s, [])
      | .elem t a cc => processNode surf parentTag (.elem t a cc) s
    let r2 := processChildren surf parentTag cs r1.1
    (r2.1, r1.2 ++ r2.2)

/-- The nested-list pass of the `li` case (pdf.ts lines 243-250): recurse
only into `ul`/`ol` element children. -/
def processNested (surf : Surface) (ns : List DNode) (s : St) : St × List Ev :=
  match ns with
  | [] => (s, [])
  | c :: cs =>
    let r1 := match c with
      | .text _ => (s, [])
      | .elem t a cc =>
        if t = "ul" ∨ t = "ol" then processNode surf "li" (.elem t a cc) s else (s, [])
    let r2 := processNested surf cs r1.1
    (r2.1, r1.2 ++ r2.2)
end

/-- The initial state of one `renderToPdf` call: cursor at the top margin,
no open lists, and the fresh jsPDF document's default style registers. -/
def initialSt : St :=
  { y := MARGIN, listDepth := 0, listCounters := [],
    fontFamily := "helvetica", fontStyle := "normal", fontSize := 16,
    textColor := (0, 0, 0), fillColor := (0, 0, 0), drawColor := (0, 0, 0), lineWidth := 1 }

/-- `renderToPdf` (pdf.ts lines 78-365): the sanitized HTML is parsed into a
wrapper `div` whose children are walked in order. -/
def renderToPdf (surf : Surface) (rootChildren : List DNode) : St × List Ev :=
  processChildren surf "div" rootChildren initialSt

/-- Number of pages of the finished document: jsPDF starts with one page and
`addPage` appends one. -/
def pageCount (trace : List Ev) : ℕ :=
  1 + (trace.filter (fun e => e == Ev.addPage)).length

/-- Is the event a text run? -/
def isTextEv : Ev → Bool
  | .text _ _ _ _ _ _ _ => true
  | _ => false

/-- Number of emitted text runs. -/
def textLineCount (trace : List Ev) : ℕ :=
  (trace.filter isTextEv).length

/-- The strings of the emitted text runs, in order. -/
def textStrings (trace : List Ev) : List String :=
  trace.filterMap (fun e => match e with
    | .text str _ _ _ _ _ _ => some str
    | _ => none)

/-- `downloadMarkdownAsPdf` (pdf.ts lines 367-411).  The external
collaborators that are not part of this repository are parameters: `remark`
(the Markdown compiler applied after `convertLatexToUnicode`, pdf.ts
lines 40-49), `DOMPurify.sanitize`, and the `DOMParser` step of
`renderToPdf`.  The function throws `EmptyMarkdownError` iff the trimmed
input is empty, before any of those run. -/
def downloadMarkdownAsPdf (remark : String → String) (sanitize : String → String)
    (parseHtml : String → List DNode) (surf : Surface) (markdown : String) :
    Except EmptyMarkdownError (St × List Ev) :=
  if jsTrim markdown = "" then
    .error { name := "EmptyMarkdownError", message := defaultEmptyMessage }
  else
    .ok (renderToPdf surf (parseHtml (sanitize (remark (convertLatexToUnicode markdown)))))

@[simp] theorem checkPageBreak_listCounters (surf : Surface) (h : ℚ) (s : St) :
    (checkPageBreak surf h s).1.listCounters = s.listCounters := by
  unfold checkPageBreak; split <;> simp

@[simp] theorem checkPageBreak_listDepth (surf : Surface) (h : ℚ) (s : St) :
    (checkPageBreak surf h s).1.listDepth = s.listDepth := by
  unfold checkPageBreak; split <;> simp

@[simp] theorem renderLines_listCounters (surf : Surface) (lh tx : ℚ) (ls : List String) (s : St) :
    (renderLines surf lh tx ls s).1.listCounters = s.listCounters := by
  induction ls generalizing s with
  | nil => simp [renderLines]
  | cons l rest ih => simp [renderLines, ih]

@[simp] theorem renderLines_listDepth (surf : Surface) (lh tx : ℚ) (ls : List String) (s : St) :
    (renderLines surf lh tx ls s).1.listDepth = s.listDepth := by
  induction ls generalizing s with
  | nil => simp [renderLines]
  | cons l rest ih => simp [renderLines, ih]

@[simp] theorem renderText_listCounters (surf : Surface) (t : String) (fs : ℚ) (o : TextOpts) (s : St) :
    (renderText surf t fs o s).1.listCounters = s.listCounters := by
  unfold renderText
  split_ifs <;> simp

@[simp] theorem renderText_listDepth (surf : Surface) (t : String) (fs : ℚ) (o : TextOpts) (s : St) :
    (renderText surf t fs o s).1.listDepth = s.listDepth := by
  unfold renderText
  split_ifs <;> simp

@[simp] theorem preLines_listCounters (surf : Surface) (lh : ℚ) (ls : List String) (s : St) :
    (preLines surf lh ls s).1.listCounters = s.listCounters := by
  induction ls generalizing s with
  | nil => simp [preLines]
  | cons l rest ih => simp [preLines, ih]

@[simp] theorem preLines_listDepth (surf : Surface) (lh : ℚ) (ls : List String) (s : St) :
    (preLines surf lh ls s).1.listDepth = s.listDepth := by
  induction ls generalizing s with
  | nil => simp [preLines]
  | cons l rest ih => simp [preLines, ih]

@[simp] theorem tableCells_listCounters (surf : Surface) (cw rh : ℚ) (hd : Bool)
    (cells : List DNode) (i : ℕ) (s : St) :
    (tableCells surf cw rh hd cells i s).1.listCounters = s.listCounters := by
  induction cells generalizing i s with
  | nil => simp [tableCells]
  | cons c rest ih => simp [tableCells, ih]

@[simp] theorem tableCells_listDepth (surf : Surface) (cw rh : ℚ) (hd : Bool)
    (cells : List DNode) (i : ℕ) (s : St) :
    (tableCells surf cw rh hd cells i s).1.listDepth = s.listDepth := by
  induction cells generalizing i s with
  | nil => simp [tableCells]
  | cons c rest ih => simp [tableCells, ih]

@[simp] theorem tableRow_listCounters (surf : Surface) (cw rh : ℚ) (cols : ℕ) (row : DNode) (s : St) :
    (tableRow surf cw rh cols row s).1.listCounters = s.listCounters := by
  simp only [tableRow]
  split_ifs <;> simp

@[simp] theorem tableRow_listDepth (surf : Surface) (cw rh : ℚ) (cols : ℕ) (row : DNode) (s : St) :
    (tableRow surf cw rh cols row s).1.listDepth = s.listDepth := by
  simp only [tableRow]
  split_ifs <;> simp

@[simp] theorem tableRows_listCounters (surf : Surface) (cw rh : ℚ) (cols : ℕ)
    (rows : List DNode) (s : St) :
    (tableRows surf cw rh cols rows s).1.listCounters = s.listCounters := by
  induction rows generalizing s with
  | nil => simp [tableRows]
  | cons r rest ih => simp [tableRows, ih]

@[simp] theorem tableRows_listDepth (surf : Surface) (cw rh : ℚ) (cols : ℕ)
    (rows : List DNode) (s : St) :
    (tableRows surf cw rh cols rows s).1.listDepth = s.listDepth := by
  induction rows generalizing s with
  | nil => simp [tableRows]
  | cons r rest ih => simp [tableRows, ih]

theorem incLast_append_singleton (xs : List ℕ) (k : ℕ) :
    incLast (xs ++ [k]) = xs ++ [k + 1] := by
  induction xs with
  | nil => simp [incLast]
  | cons x rest ih =>
    cases rest with
    | nil => simp [incLast]
    | cons y t => simpa [incLast] using ih

theorem incLast_iterate_append (m : ℕ) (xs : List ℕ) (k : ℕ) :
    incLast^[m] (xs ++ [k]) = xs ++ [k + m] := by
  induction m generalizing k with
  | zero => simp
  | succ m ih =>
    rw [Function.iterate_succ_apply, incLast_append_singleton, ih]
    ring_nf

@[simp] theorem incLast_length (l : List ℕ) : (incLast l).length = l.length := by
  induction l with
  | nil => simp [incLast]
  | cons x rest ih =>
    cases rest with
    | nil => simp [incLast]
    | cons y t => simpa [incLast] using ih

theorem incLast_iterate_length (m : ℕ) (l : List ℕ) : (incLast^[m] l).length = l.length := by
  induction m generalizing l with
  | zero => simp
  | succ m ih => rw [Function.iterate_succ_apply]; simp [ih]

theorem lastCounterStr_append (xs : List ℕ) (k : ℕ) :
    lastCounterStr (xs ++ [k]) = toString k := by
  induction xs with
  | nil => simp [lastCounterStr]
  | cons x rest ih =>
    cases rest with
    | nil => simp [lastCounterStr]
    | cons y t => simpa [lastCounterStr] using ih

@[simp] theorem addSpace_listCounters (p : ℚ) (s : St) : (addSpace p s).listCounters = s.listCounters := rfl

@[simp] theorem addSpace_listDepth (p : ℚ) (s : St) : (addSpace p s).listDepth = s.listDepth := rfl

/-- The tags `processNode` handles with a dedicated case (everything else
falls through to the recurse-into-children default). -/
def knownTag (t : String) : Bool :=
  t == "h1" || t == "h2" || t == "h3" || t == "h4" || t == "h5" || t == "h6" ||
  t == "p" || t == "ul" || t == "ol" || t == "blockquote" || t == "pre" ||
  t == "table" || t == "hr"

/-- Number of `li` element nodes in a child list (each increments the open
counter once when processed). -/
def liCount : List DNode → ℕ
  | [] => 0
  | .text _ :: cs => liCount cs
  | .elem t _ _ :: cs => (if t = "li" then 1 else 0) + liCount cs

@[simp] theorem fst_ite (c : Prop) [Decidable c] (a b : St × List Ev) :
    (if c then a else b).1 = if c then a.1 else b.1 := by split <;> rfl

@[simp] theorem snd_ite (c : Prop) [Decidable c] (a b : St × List Ev) :
    (if c then a else b).2 = if c then a.2 else b.2 := by split <;> rfl

@[simp] theorem listDepth_ite (c : Prop) [Decidable c] (a b : St) :
    (if c then a else b).listDepth = if c then a.listDepth else b.listDepth := by split <;> rfl

@[simp] theorem listCounters_ite (c : Prop) [Decidable c] (a b : St) :
    (if c then a else b).listCounters = if c then a.listCounters else b.listCounters := by
  split <;> rfl

@[simp] theorem y_ite (c : Prop) [Decidable c] (a b : St) :
    (if c then a else b).y = if c then a.y else b.y := by split <;> rfl

/-- State effect of `processNode` on the list bookkeeping. -/
def PNstate (surf : Surface) (n : DNode) : Prop :=
  ∀ par s,
    (processNode surf par n s).1.listDepth = s.listDepth ∧
    (∃ m, (processNode surf par n s).1.listCounters = incLast^[m] s.listCounters) ∧
    (∀ t acc cc, n = DNode.elem t acc cc → t ≠ "li" → knownTag t →
        (processNode surf par n s).1.listCounters = s.listCounters) ∧
    (∀ acc cc, n = DNode.elem "li" acc cc →
        (processNode surf par n s).1.listCounters = incLast s.listCounters)

/-- State effect of `processChildren`. -/
def PCstate (surf : Surface) (ns : List DNode) : Prop :=
  ∀ par s,
    (processChildren surf par ns s).1.listDepth = s.listDepth ∧
    (∃ m, (processChildren surf par ns s).1.listCounters = incLast^[m] s.listCounters) ∧
    ((∀ t acc cc, DNode.elem t acc cc ∈ ns → t = "li") →
        (processChildren surf par ns s).1.listCounters = incLast^[liCount ns] s.listCounters)

/-- State effect of the nested-list pass of the `li` case. -/
def PNestState (surf : Surface) (ns : List DNode) : Prop :=
  ∀ s, (processNested surf ns s).1.listDepth = s.listDepth ∧
       (processNested surf ns s).1.listCounters = s.listCounters

theorem PC_of (surf : Surface) (ns : List DNode) (h : ∀ c ∈ ns, PNstate surf c) :
    PCstate surf ns := by
  induction ns with
  | nil =>
    intro par s
    refine ⟨by simp [processChildren], ⟨0, by simp [processChildren]⟩, ?_⟩
    intro _; simp [processChildren, liCount]
  | cons c cs ih =>
    have hc : PNstate surf c := h c (by simp)
    have hcs : PCstate surf cs := ih (fun d hd => h d (by simp [hd]))
    intro par s
    cases c with
    | text s0 =>
      refine ⟨?_, ?_, ?_⟩
      · simpa only [processChildren] using (hcs par s).1
      · obtain ⟨m, hm⟩ := (hcs par s).2.1
        exact ⟨m, by simpa only [processChildren] using hm⟩
      · intro hall
        have hrest := (hcs par s).2.2 (fun t' acc' cc' hm => hall t' acc' cc' (by simp [hm]))
        simpa only [processChildren, liCount] using hrest
    | elem t acc cc =>
      refine ⟨?_, ?_, ?_⟩
      · have h1 := (hc par s).1
        have h2 := (hcs par (processNode surf par (DNode.elem t acc cc) s).1).1
        simp only [processChildren]
        rw [h2, h1]
      · obtain ⟨m1, hm1⟩ := (hc par s).2.1
        obtain ⟨m2, hm2⟩ := (hcs par (processNode surf par (DNode.elem t acc cc) s).1).2.1
        refine ⟨m2 + m1, ?_⟩
        simp only [processChildren]
        rw [hm2, hm1, ← Function.iterate_add_apply]
      · intro hall
        have ht : t = "li" := hall t acc cc (by simp)
        subst ht
        have hcLi := (hc par s).2.2.2 acc cc rfl
        have hrest := (hcs par (processNode surf par (DNode.elem "li" acc cc) s).1).2.2
          (fun t' acc' cc' hm => hall t' acc' cc' (by simp [hm]))
        simp only [processChildren]
        rw [hrest, hcLi, liCount]
        have : incLast s.listCounters = incLast^[1] s.listCounters := by simp
        rw [this, ← Function.iterate_add_apply]
        simp [Nat.add_comm]

theorem PNest_of (surf : Surface) (ns : List DNode) (h : ∀ c ∈ ns, PNstate surf c) :
    PNestState surf ns := by
  induction ns with
  | nil => intro s; constructor <;> simp [processNested]
  | cons c cs ih =>
    have hcs : PNestState surf cs := ih (fun d hd => h d (by simp [hd]))
    intro s
    cases c with
    | text s0 =>
      exact ⟨by simpa only [processNested] using (hcs s).1,
             by simpa only [processNested] using (hcs s).2⟩
    | elem t acc cc =>
      have hc : PNstate surf (DNode.elem t acc cc) := h _ (by simp)
      by_cases hul : t = "ul" ∨ t = "ol"
      · have hk : knownTag t := by rcases hul with h' | h' <;> simp [knownTag, h']
        have hne : t ≠ "li" := by rcases hul with h' | h' <;> simp [h']
        have h1 := (hc "li" s).1
        have h2 := (hc "li" s).2.2.1 t acc cc rfl hne hk
        refine ⟨?_, ?_⟩
        · have h3 := (hcs (processNode surf "li" (DNode.elem t acc cc) s).1).1
          simp only [processNested, if_pos hul]
          rw [h3, h1]
        · have h3 := (hcs (processNode surf "li" (DNode.elem t acc cc) s).1).2
          simp only [processNested, if_pos hul]
          rw [h3, h2]
      · refine ⟨?_, ?_⟩
        · simpa only [processNested, if_neg hul] using (hcs s).1
        · simpa only [processNested, if_neg hul] using (hcs s).2

theorem PN_all_aux (surf : Surface) : ∀ (k : ℕ) (n : DNode), sizeOf n ≤ k → PNstate surf n := by
  intro k
  induction k with
  | zero =>
    intro n hn
    exfalso
    cases n <;> simp_all
  | succ k ih =>
    intro n hn
    cases n with
    | text s0 =>
      intro par s
      refine ⟨by simp [processNode], ⟨0, by simp [processNode]⟩, ?_, ?_⟩
      · intro t acc cc hEq; exact absurd hEq (by simp)
      · intro acc cc hEq; exact absurd hEq (by simp)
    | elem t acc cc =>
      have hkids : ∀ c ∈ cc, PNstate surf c := by
        intro c hc
        apply ih
        have h1 : sizeOf c < sizeOf cc := List.sizeOf_lt_of_mem hc
        have h2 : sizeOf cc < sizeOf (DNode.elem t acc cc) := by
          simp only [DNode.elem.sizeOf_spec]
          omega
        omega
      have hPC : PCstate surf cc := PC_of surf cc hkids
      have hPNest : PNestState surf cc := PNest_of surf cc hkids
      intro par s
      by_cases h1 : t = "h1"
      · subst h1
        refine ⟨by simp [processNode], ⟨0, by simp [processNode]⟩, ?_, ?_⟩
        · intro t' acc' cc' hEq hne hk; cases hEq; simp [processNode]
        · intro acc' cc' hEq; exact absurd hEq (by simp)
      by_cases h2 : t = "h2"
      · subst h2
        refine ⟨by simp [processNode], ⟨0, by simp [processNode]⟩, ?_, ?_⟩
        · intro t' acc' cc' hEq hne hk; cases hEq; simp [processNode]
        · intro acc' cc' hEq; exact absurd hEq (by simp)
      by_cases h3 : t = "h3"
      · subst h3
        refine ⟨by simp [processNode], ⟨0, by simp [processNode]⟩, ?_, ?_⟩
        · intro t' acc' cc' hEq hne hk; cases hEq; simp [processNode]
        · intro acc' cc' hEq; exact absurd hEq (by simp)
      by_cases h4a : t = "h4"
      · subst h4a
        refine ⟨by simp [processNode], ⟨0, by simp [processNode]⟩, ?_, ?_⟩
        · intro t' acc' cc' hEq hne hk; cases hEq; simp [processNode]
        · intro acc' cc' hEq; exact absurd hEq (by simp)
      by_cases h4b : t = "h5"
      · subst h4b
        refine ⟨by simp [processNode], ⟨0, by simp [processNode]⟩, ?_, ?_⟩
        · intro t' acc' cc' hEq hne hk; cases hEq; simp [processNode]
        · intro acc' cc' hEq; exact absurd hEq (by simp)
      by_cases h4c : t = "h6"
      · subst h4c
        refine ⟨by simp [processNode], ⟨0, by simp [processNode]⟩, ?_, ?_⟩
        · intro t' acc' cc' hEq hne hk; cases hEq; simp [processNode]
        · intro acc' cc' hEq; exact absurd hEq (by simp)
      by_cases h5 : t = "p"
      · subst h5
        refine ⟨by simp [processNode], ⟨0, by simp [processNode]⟩, ?_, ?_⟩
        · intro t' acc' cc' hEq hne hk; cases hEq; simp [processNode]
        · intro acc' cc' hEq; exact absurd hEq (by simp)
      by_cases h6a : t = "ul"
      · subst h6a
        have hdep := (hPC "ul" { s with listDepth := s.listDepth + 1, listCounters := s.listCounters ++ [0] }).1
        obtain ⟨m, hm⟩ := (hPC "ul" { s with listDepth := s.listDepth + 1, listCounters := s.listCounters ++ [0] }).2.1
        simp only [] at hdep hm
        have hcnt : (processChildren surf "ul" cc { s with listDepth := s.listDepth + 1, listCounters := s.listCounters ++ [0] }).1.listCounters.dropLast = s.listCounters := by
          rw [hm, incLast_iterate_append]
          exact List.dropLast_concat
        refine ⟨by simp [processNode, hdep], ⟨0, by simp [processNode, hcnt]⟩, ?_, ?_⟩
        · intro t' acc' cc' hEq hne hk; cases hEq; simp [processNode, hcnt]
        · intro acc' cc' hEq; exact absurd hEq (by simp)
      by_cases h6b : t = "ol"
      · subst h6b
        have hdep := (hPC "ol" { s with listDepth := s.listDepth + 1, listCounters := s.listCounters ++ [0] }).1
        obtain ⟨m, hm⟩ := (hPC "ol" { s with listDepth := s.listDepth + 1, listCounters := s.listCounters ++ [0] }).2.1
        simp only [] at hdep hm
        have hcnt : (processChildren surf "ol" cc { s with listDepth := s.listDepth + 1, listCounters := s.listCounters ++ [0] }).1.listCounters.dropLast = s.listCounters := by
          rw [hm, incLast_iterate_append]
          exact List.dropLast_concat
        refine ⟨by simp [processNode, hdep], ⟨0, by simp [processNode, hcnt]⟩, ?_, ?_⟩
        · intro t' acc' cc' hEq hne hk; cases hEq; simp [processNode, hcnt]
        · intro acc' cc' hEq; exact absurd hEq (by simp)
      by_cases h7 : t = "li"
      · subst h7
        refine ⟨?_, ⟨1, ?_⟩, ?_, ?_⟩
        · simp [processNode, (hPNest _).1]
        · simp [processNode, (hPNest _).2]
        · intro t' acc' cc' hEq hne hk; cases hEq; simp at hne
        · intro acc' cc' hEq
          cases hEq
          simp [processNode, (hPNest _).2]
      by_cases h8 : t = "blockquote"
      · subst h8
        refine ⟨by simp [processNode], ⟨0, by simp [processNode]⟩, ?_, ?_⟩
        · intro t' acc' cc' hEq hne hk; cases hEq; simp [processNode]
        · intro acc' cc' hEq; exact absurd hEq (by simp)
      by_cases h9 : t = "pre"
      · subst h9
        refine ⟨by simp [processNode], ⟨0, by simp [processNode]⟩, ?_, ?_⟩
        · intro t' acc' cc' hEq hne hk; cases hEq; simp [processNode]
        · intro acc' cc' hEq; exact absurd hEq (by simp)
      by_cases h10 : t = "table"
      · subst h10
        refine ⟨?_, ⟨0, ?_⟩, ?_, ?_⟩
        · simp [processNode]
          split <;> simp
        · simp [processNode]
          split <;> simp
        · intro t' acc' cc' hEq hne hk; cases hEq
          simp [processNode]
          split <;> simp
        · intro acc' cc' hEq; exact absurd hEq (by simp)
      by_cases h11 : t = "hr"
      · subst h11
        refine ⟨by simp [processNode], ⟨0, by simp [processNode]⟩, ?_, ?_⟩
        · intro t' acc' cc' hEq hne hk; cases hEq; simp [processNode]
        · intro acc' cc' hEq; exact absurd hEq (by simp)
      -- default: recurse into children
      have hb : processNode surf par (DNode.elem t acc cc) s = processChildren surf t cc s := by
        simp [processNode, h1, h2, h3, h4a, h4b, h4c, h5, h6a, h6b, h7, h8, h9, h10, h11]
      refine ⟨?_, ?_, ?_, ?_⟩
      · rw [hb]; exact (hPC t s).1
      · rw [hb]; exact (hPC t s).2.1
      · intro t' acc' cc' hEq hne hk; cases hEq
        exfalso
        simp [knownTag, h1, h2, h3, h4a, h4b, h4c, h5, h6a, h6b, h7, h8, h9, h10, h11] at hk
      · intro acc' cc' hEq
        exfalso; apply h7; injection hEq

theorem PNstate_all (surf : Surface) (n : DNode) : PNstate surf n :=
  PN_all_aux surf (sizeOf n) n le_rfl

@[simp] theorem textStrings_append (a b : List Ev) :
    textStrings (a ++ b) = textStrings a ++ textStrings b := by
  simp [textStrings]

@[simp] theorem textStrings_nil : textStrings [] = [] := rfl

@[simp] theorem checkPageBreak_textStrings (surf : Surface) (h : ℚ) (s : St) :
    textStrings (checkPageBreak surf h s).2 = [] := by
  unfold checkPageBreak; split <;> simp [textStrings]

@[simp] theorem checkPageBreak_fontFamily (surf : Surface) (h : ℚ) (s : St) :
    (checkPageBreak surf h s).1.fontFamily = s.fontFamily := by
  unfold checkPageBreak; split <;> simp

@[simp] theorem checkPageBreak_fontStyle (surf : Surface) (h : ℚ) (s : St) :
    (checkPageBreak surf h s).1.fontStyle = s.fontStyle := by
  unfold checkPageBreak; split <;> simp

@[simp] theorem checkPageBreak_fontSize (surf : Surface) (h : ℚ) (s : St) :
    (checkPageBreak surf h s).1.fontSize = s.fontSize := by
  unfold checkPageBreak; split <;> simp

@[simp] theorem checkPageBreak_textColor (surf : Surface) (h : ℚ) (s : St) :
    (checkPageBreak surf h s).1.textColor = s.textColor := by
  unfold checkPageBreak; split <;> simp

@[simp] theorem checkPageBreak_fillColor (surf : Surface) (h : ℚ) (s : St) :
    (checkPageBreak surf h s).1.fillColor = s.fillColor := by
  unfold checkPageBreak; split <;> simp

@[simp] theorem checkPageBreak_drawColor (surf : Surface) (h : ℚ) (s : St) :
    (checkPageBreak surf h s).1.drawColor = s.drawColor := by
  unfold checkPageBreak; split <;> simp

@[simp] theorem checkPageBreak_lineWidth (surf : Surface) (h : ℚ) (s : St) :
    (checkPageBreak surf h s).1.lineWidth = s.lineWidth := by
  unfold checkPageBreak; split <;> simp

@[simp] theorem textStrings_cons_text (str : String) (x y : ℚ) (fam st : String) (sz : ℚ)
    (c : ℕ × ℕ × ℕ) (rest : List Ev) :
    textStrings (Ev.text str x y fam st sz c :: rest) = str :: textStrings rest := rfl

@[simp] theorem textStrings_cons_addPage (rest : List Ev) :
    textStrings (Ev.addPage :: rest) = textStrings rest := rfl

@[simp] theorem textStrings_cons_line (x1 y1 x2 y2 : ℚ) (c : ℕ × ℕ × ℕ) (w : ℚ) (rest : List Ev) :
    textStrings (Ev.line x1 y1 x2 y2 c w :: rest) = textStrings rest := rfl

@[simp] theorem textStrings_cons_rect (x y w h : ℚ) (f : Bool) (c : ℕ × ℕ × ℕ) (rest : List Ev) :
    textStrings (Ev.rect x y w h f c :: rest) = textStrings rest := rfl

@[simp] theorem textStrings_cons_rrect (x y w h rx ry : ℚ) (f : Bool) (c : ℕ × ℕ × ℕ) (rest : List Ev) :
    textStrings (Ev.roundedRect x y w h rx ry f c :: rest) = textStrings rest := rfl

theorem renderLines_textStrings (surf : Surface) (lh tx : ℚ) (ls : List String) (s : St) :
    textStrings (renderLines surf lh tx ls s).2 = ls := by
  induction ls generalizing s with
  | nil => simp [renderLines]
  | cons l rest ih => simp [renderLines, ih]

/-- The font style string `renderText` selects from its options. -/
def fontStyleOf (o : TextOpts) : String :=
  if o.bold then (if o.italic then "bolditalic" else "bold")
  else (if o.italic then "italic" else "normal")

theorem renderText_textStrings (surf : Surface) (t : String) (fs : ℚ) (o : TextOpts) (s : St) :
    textStrings (renderText surf t fs o s).2 =
      (if o.pfx = "" then [] else [o.pfx]) ++
        surf.wrap "helvetica" (fontStyleOf o) fs t
          ((surf.pageWidth - MARGIN * 2) - o.indent - (if o.pfx = "" then 0 else 15)) := by
  unfold renderText fontStyleOf
  split_ifs with hb hi hp <;> simp_all [renderLines_textStrings]

theorem checkPageBreak_noFire (surf : Surface) (h : ℚ) (s : St)
    (hnp : Ev.addPage ∉ (checkPageBreak surf h s).2) :
    checkPageBreak surf h s = (s, []) ∧ s.y + h ≤ surf.pageHeight - MARGIN := by
  by_cases hc : s.y + h > surf.pageHeight - MARGIN
  · exfalso; apply hnp; simp [checkPageBreak, hc]
  · exact ⟨by simp [checkPageBreak, hc], not_lt.mp hc⟩

theorem preLines_textStrings (surf : Surface) (lh : ℚ) (ls : List String) (s : St) :
    textStrings (preLines surf lh ls s).2 = ls.map (fun l => if l = "" then " " else l) := by
  induction ls generalizing s with
  | nil => simp [preLines]
  | cons l rest ih => simp [preLines, ih]

theorem preLines_noBreak (surf : Surface) (lh : ℚ) (ls : List String) (s : St)
    (hls : ls ≠ []) (hnp : Ev.addPage ∉ (preLines surf lh ls s).2) :
    s.y + (ls.length : ℚ) * lh ≤ surf.pageHeight - MARGIN := by
  induction ls generalizing s with
  | nil => exact absurd rfl hls
  | cons l rest ih =>
    have hstep : (preLines surf lh (l :: rest) s).2
        = (checkPageBreak surf lh s).2 ++ [Ev.text (if l = "" then " " else l) (MARGIN + 10)
            (checkPageBreak surf lh s).1.y (checkPageBreak surf lh s).1.fontFamily
            (checkPageBreak surf lh s).1.fontStyle (checkPageBreak surf lh s).1.fontSize
            (checkPageBreak surf lh s).1.textColor]
          ++ (preLines surf lh rest
              { (checkPageBreak surf lh s).1 with y := (checkPageBreak surf lh s).1.y + lh }).2 := rfl
    rw [hstep] at hnp
    simp only [List.mem_append, List.mem_singleton] at hnp
    push_neg at hnp
    obtain ⟨⟨h1, -⟩, h3⟩ := hnp
    obtain ⟨hEqn, hle⟩ := checkPageBreak_noFire surf lh s h1
    rw [hEqn] at h3
    dsimp only at h3
    cases rest with
    | nil => simpa using hle
    | cons r rs =>
      have hih := ih (s := { s with y := s.y + lh }) (by simp) h3
      simp only [List.length_cons] at hih ⊢
      push_cast at hih ⊢
      linarith

/-- The prefix glyph the `li` case computes (pdf.ts lines 216-222), as a
function of the parent tag, the node and the counter stack at entry. -/
def liPfx (par : String) (n : DNode) (counters : List ℕ) : String :=
  match (descendants n).find? isCheckboxInput with
  | some cb => if hasAttr "checked" cb then "☑" else "☐"
  | none => if par = "ol" then lastCounterStr (incLast counters) ++ "." else "•"

theorem liPfx_ne_empty (par : String) (n : DNode) (counters : List ℕ) :
    liPfx par n counters ≠ "" := by
  unfold liPfx
  split
  · split <;> simp
  · split
    · intro h
      have := congrArg String.length h
      simp [String.length_append] at this
      exact absurd this.2 (by decide)
    · simp

theorem renderText_find_text (surf : Surface) (t : String) (fs : ℚ) (o : TextOpts) (s : St)
    (hp : o.pfx ≠ "") (rest : List Ev) :
    ∃ ypos, (((renderText surf t fs o s).2) ++ rest).find? isTextEv
      = some (Ev.text o.pfx (MARGIN + o.indent) ypos "helvetica" (fontStyleOf o) fs o.color) := by
  by_cases hc : s.y + getLineHeight fs > surf.pageHeight - MARGIN
  · refine ⟨MARGIN, ?_⟩
    simp [renderText, hp, checkPageBreak, hc, fontStyleOf, List.find?, isTextEv]
  · refine ⟨s.y, ?_⟩
    simp [renderText, hp, checkPageBreak, hc, fontStyleOf, List.find?, isTextEv]

theorem processNode_li_first_text (surf : Surface) (par : String)
    (acc : List (String × String)) (cc : List DNode) (s : St)
    (hdt : jsTrim (directTextOf cc) ≠ "") :
    ∃ ypos, (processNode surf par (DNode.elem "li" acc cc) s).2.find? isTextEv
      = some (Ev.text (liPfx par (DNode.elem "li" acc cc) s.listCounters)
          (MARGIN + ((s.listDepth : ℚ) - 1) * 20) ypos "helvetica" "normal" FONT_SIZE_BODY (0, 0, 0)) := by
  obtain ⟨ypos, hfind⟩ := renderText_find_text surf (jsTrim (directTextOf cc)) FONT_SIZE_BODY { indent := ((s.listDepth : ℚ) - 1) * 20, pfx := liPfx par (DNode.elem "li" acc cc) s.listCounters } { s with listCounters := incLast s.listCounters } (liPfx_ne_empty par (DNode.elem "li" acc cc) s.listCounters) (processNested surf cc (renderText surf (jsTrim (directTextOf cc)) FONT_SIZE_BODY { indent := ((s.listDepth : ℚ) - 1) * 20, pfx := liPfx par (DNode.elem "li" acc cc) s.listCounters } { s with listCounters := incLast s.listCounters }).1).2
  refine ⟨ypos, ?_⟩
  have hnorm : fontStyleOf { indent := ((s.listDepth : ℚ) - 1) * 20, pfx := liPfx par (DNode.elem "li" acc cc) s.listCounters } = "normal" := by
    simp [fontStyleOf]
  rw [hnorm] at hfind
  simpa [processNode, hdt, liPfx] using hfind

theorem tableCells_trace (surf : Surface) (cw rh : ℚ) (hd : Bool) :
    ∀ (cells : List DNode) (i : ℕ) (s : St),
    (tableCells surf cw rh hd cells i s).2
      = (List.enumFrom i cells).map (fun p =>
          Ev.text ((surf.wrap "helvetica" (if hd then "bold" else "normal") FONT_SIZE_BODY
              (jsTrim (extractText "tr" p.2 0)) (cw - 10)).headD "")
            (MARGIN + (p.1 : ℚ) * cw + 5) (s.y + rh / 2 + 3) "helvetica"
            (if hd then "bold" else "normal") FONT_SIZE_BODY s.textColor) := by
  intro cells
  induction cells with
  | nil => intro i s; simp [tableCells]
  | cons c cs ih =>
    intro i s
    simp only [tableCells, List.enumFrom_cons, List.map_cons]
    rw [ih]
    simp

@[simp] theorem tableCells_y (surf : Surface) (cw rh : ℚ) (hd : Bool)
    (cells : List DNode) (i : ℕ) (s : St) :
    (tableCells surf cw rh hd cells i s).1.y = s.y := by
  induction cells generalizing i s with
  | nil => simp [tableCells]
  | cons c cs ih => simp [tableCells, ih]

@[simp] theorem tableCells_drawColor (surf : Surface) (cw rh : ℚ) (hd : Bool)
    (cells : List DNode) (i : ℕ) (s : St) :
    (tableCells surf cw rh hd cells i s).1.drawColor = s.drawColor := by
  induction cells generalizing i s with
  | nil => simp [tableCells]
  | cons c cs ih => simp [tableCells, ih]

/-- The trace of one table row: the page-break check, the header fill when a
`th` descendant exists, one truncated text run per cell, the border
rectangle, and the per-column separator lines. -/
theorem tableRow_trace (surf : Surface) (cw rh : ℚ) (cols : ℕ) (row : DNode) (s : St) :
    (tableRow surf cw rh cols row s).2
      = (checkPageBreak surf rh s).2
        ++ (if (descendants row).any (fun d => tagOf d == some "th") then
              [Ev.rect MARGIN (checkPageBreak surf rh s).1.y (surf.pageWidth - MARGIN * 2) rh true
                (240, 240, 240)]
            else [])
        ++ (List.enumFrom 0 (cellsOf row)).map (fun p =>
            Ev.text ((surf.wrap "helvetica"
                (if (descendants row).any (fun d => tagOf d == some "th") then "bold" else "normal")
                FONT_SIZE_BODY (jsTrim (extractText "tr" p.2 0)) (cw - 10)).headD "")
              (MARGIN + (p.1 : ℚ) * cw + 5) ((checkPageBreak surf rh s).1.y + rh / 2 + 3)
              "helvetica"
              (if (descendants row).any (fun d => tagOf d == some "th") then "bold" else "normal")
              FONT_SIZE_BODY (checkPageBreak surf rh s).1.textColor)
        ++ [Ev.rect MARGIN (checkPageBreak surf rh s).1.y (surf.pageWidth - MARGIN * 2) rh false
              (200, 200, 200)]
        ++ ((List.range cols).drop 1).map (fun i =>
            Ev.line (MARGIN + (i : ℚ) * cw) (checkPageBreak surf rh s).1.y
              (MARGIN + (i : ℚ) * cw) ((checkPageBreak surf rh s).1.y + rh) (200, 200, 200) (1/2)) := by
  simp only [tableRow, colLines]
  split_ifs with hh <;>
    simp [tableCells_trace, tableCells_y, tableCells_drawColor, hh]

/-- The style-register content of a text event, `none` for other events. -/
def textEvStyle : Ev → Option String
  | .text _ _ _ _ st _ _ => some st
  | _ => none

/-- A letter-size portrait surface in points (612 × 792, jsPDF's
`format: 'letter'`), with a metrics function that wraps every string to a
single line — used to evaluate the engine on concrete documents. -/
def letterSurf : Surface :=
  { pageWidth := 612, pageHeight := 792, wrap := fun _ _ _ t _ => [t] }

theorem textStrings_length (tr : List Ev) :
    (textStrings tr).length = textLineCount tr := by
  induction tr with
  | nil => rfl
  | cons e rest ih =>
    cases e <;> simp [textStrings, textLineCount, isTextEv] at ih ⊢ <;> omega

theorem splitNlAux_ne_nil (cur : List Char) (l : List Char) : splitNlAux cur l ≠ [] := by
  induction l generalizing cur with
  | nil => simp [splitNlAux]
  | cons c rest ih =>
    simp only [splitNlAux]
    split
    · simp
    · exact ih (c :: cur)

theorem splitNl_ne_nil (s : String) : splitNl s ≠ [] := splitNlAux_ne_nil [] s.data

/-- `PCstate` holds for every child list (from `PNstate_all`). -/
theorem PCstate_all (surf : Surface) (ns : List DNode) : PCstate surf ns :=
  PC_of surf ns (fun c _ => PNstate_all surf c)

/-- C1: `downloadMarkdownAsPdf` throws `EmptyMarkdownError` carrying the
user-facing default message exactly when the trimmed input is empty, before
the Markdown compiler, sanitizer or layout engine run (the error is the same
whatever those collaborators are); when the trimmed input is non-empty the
exporter's own check throws nothing and the pipeline output is returned. -/
theorem claim_c1 (remark sanitize : String → String) (parseHtml : String → List DNode)
    (surf : Surface) (markdown : String) :
    (jsTrim markdown = "" →
      downloadMarkdownAsPdf remark sanitize parseHtml surf markdown
        = .error { name := "EmptyMarkdownError", message := defaultEmptyMessage }) ∧
    (jsTrim markdown ≠ "" →
      downloadMarkdownAsPdf remark sanitize parseHtml surf markdown
        = .ok (renderToPdf surf (parseHtml (sanitize (remark (convertLatexToUnicode markdown)))))) := by
  constructor <;> intro h <;> simp [downloadMarkdownAsPdf, h]

/-- Witness for C1 at the whitespace-only input `"  \n "` and at `"x"`. -/
theorem claim_c1_witness :
    (jsTrim "  \n " = "" ∧
      downloadMarkdownAsPdf id id (fun _ => []) letterSurf "  \n "
        = .error { name := "EmptyMarkdownError", message := defaultEmptyMessage }) ∧
    (jsTrim "x" ≠ "" ∧
      downloadMarkdownAsPdf id id (fun _ => []) letterSurf "x"
        = .ok (renderToPdf letterSurf [])) :=
  ⟨⟨by decide, (claim_c1 id id (fun _ => []) letterSurf "  \n ").1 (by decide)⟩,
   ⟨by decide, by
      have := (claim_c1 id id (fun _ => []) letterSurf "x").2 (by decide)
      simpa using this⟩⟩

/-- C3: the Normalizer maps `"$\alpha \to \beta$"` to `"α → β"`: both macros
are in the lookup table and the table's iteration order (in which `\to`
precedes `\alpha` and `\beta`) substitutes them without corruption. -/
theorem claim_c3 : convertLatexToUnicode "$\\alpha \\to \\beta$" = "α → β" := by
  simp [convertLatexToUnicode, convLoop, processSpan, applyTable, LATEX_TO_UNICODE,
    replaceAll, stripBackslashWords, removeBraces, jsTrimL, isJsSpace]

theorem takeWhile_append_dollar (body : List Char) (hnd : '$' ∉ body) :
    (body ++ ['$']).takeWhile (fun d => d ≠ '$') = body := by
  induction body with
  | nil => simp
  | cons c rest ih =>
    have hc : c ≠ '$' := fun h => hnd (by simp [h])
    have hrest : '$' ∉ rest := fun h => hnd (by simp [h])
    simp only [List.cons_append, List.takeWhile_cons]
    simp only [hc, decide_not, decide_eq_true_eq, if_neg, Bool.not_eq_true', decide_eq_false_iff_not,
      not_false_eq_true, if_true]
    exact congrArg (List.cons c) (by simpa using ih hrest)

theorem convLoop_cons (c : Char) (rest : List Char) :
    convLoop (c :: rest) =
      if c = '$' then
        (if (rest.takeWhile (fun d => d ≠ '$')) ≠ [] ∧
            rest.drop (rest.takeWhile (fun d => d ≠ '$')).length ≠ [] then
          processSpan (rest.takeWhile (fun d => d ≠ '$'))
            ++ convLoop (rest.drop ((rest.takeWhile (fun d => d ≠ '$')).length + 1))
        else c :: convLoop rest)
      else c :: convLoop rest := by
  rw [convLoop.eq_def]

/-- C8: when a `$...$` span's content, after the table substitutions, the
backslash-macro strip and the brace strip, trims to the empty string, the
callback returns the original captured text unmodified — both at the span
callback and through the whole `$`-scan (the span is replaced by its own
capture, not by the empty string). -/
theorem claim_c8 (body : List Char) (hne : body ≠ []) (hnd : '$' ∉ body)
    (hempty : jsTrimL (removeBraces (stripBackslashWords (applyTable (jsTrimL body)))) = []) :
    processSpan body = body ∧ convLoop ('$' :: body ++ ['$']) = body := by
  have hps : processSpan body = body := by
    simp [processSpan, hempty]
  refine ⟨hps, ?_⟩
  have htake := takeWhile_append_dollar body hnd
  have hdrop : (body ++ ['$']).drop body.length = ['$'] := by
    simp [List.drop_left]
  have hdrop1 : (body ++ ['$']).drop (body.length + 1) = [] := by
    apply List.drop_eq_nil_of_le
    simp
  rw [show ('$' :: body ++ ['$']) = '$' :: (body ++ ['$']) from rfl, convLoop_cons]
  rw [if_pos rfl, htake, hdrop, hdrop1]
  simp [hne, hps, convLoop]

/-- Witness for C8 at the span `\foo`: no table entry matches, the macro
strip empties the text, and the original capture comes back unmodified. -/
theorem claim_c8_witness :
    processSpan "\\foo".data = "\\foo".data ∧
    convLoop ('$' :: "\\foo".data ++ ['$']) = "\\foo".data :=
  claim_c8 "\\foo".data (by decide) (by decide)
    (by simp [applyTable, LATEX_TO_UNICODE, replaceAll, jsTrimL, isJsSpace,
          stripBackslashWords, removeBraces])

/-- C9: the layout engine is deterministic — identical sanitized HTML laid
out against two fresh surfaces of identical dimensions and identical text
metrics produces the same page count and the same emitted-text-run count. -/
theorem claim_c9 (s1 s2 : Surface) (ns : List DNode)
    (hw : s1.pageWidth = s2.pageWidth) (hh : s1.pageHeight = s2.pageHeight)
    (hwrap : s1.wrap = s2.wrap) :
    pageCount (renderToPdf s1 ns).2 = pageCount (renderToPdf s2 ns).2 ∧
    textLineCount (renderToPdf s1 ns).2 = textLineCount (renderToPdf s2 ns).2 := by
  obtain ⟨w1, h1, f1⟩ := s1
  obtain ⟨w2, h2, f2⟩ := s2
  dsimp only at hw hh hwrap
  subst hw; subst hh; subst hwrap
  exact ⟨rfl, rfl⟩

/-- Witness for C9 on a small document against two (identical) letter
surfaces. -/
theorem claim_c9_witness :
    pageCount (renderToPdf letterSurf [DNode.elem "p" [] [DNode.text "hi"]]).2
      = pageCount (renderToPdf letterSurf [DNode.elem "p" [] [DNode.text "hi"]]).2 ∧
    textLineCount (renderToPdf letterSurf [DNode.elem "p" [] [DNode.text "hi"]]).2
      = textLineCount (renderToPdf letterSurf [DNode.elem "p" [] [DNode.text "hi"]]).2 :=
  claim_c9 letterSurf letterSurf [DNode.elem "p" [] [DNode.text "hi"]] rfl rfl rfl

/-- C10 (amended): after `processNode` returns, `listDepth` is exactly what
it was on entry and the length of `listCounters` is preserved, so
`listCounters.length = listDepth` and `listDepth ≥ 0` are invariants; the
counter stack itself is restored exactly for every `ul`/`ol` (push, recurse,
pop) and for every other tag with a dedicated case — but an `li` returns
with the top counter incremented (that increment is the positional
numbering), so the stack is `incLast` of its entry value there, and unknown
wrapper tags whose children contain `li` nodes inherit those increments
(`incLast^[m]` for some `m`). -/
theorem claim_c10_amended (surf : Surface) (n : DNode) (par : String) (s : St) :
    (processNode surf par n s).1.listDepth = s.listDepth ∧
    (processNode surf par n s).1.listCounters.length = s.listCounters.length ∧
    (∃ m, (processNode surf par n s).1.listCounters = incLast^[m] s.listCounters) ∧
    (∀ t acc cc, n = DNode.elem t acc cc → t ≠ "li" → knownTag t →
        (processNode surf par n s).1.listCounters = s.listCounters) ∧
    (∀ acc cc, n = DNode.elem "li" acc cc →
        (processNode surf par n s).1.listCounters = incLast s.listCounters) ∧
    ((s.listCounters.length : ℤ) = s.listDepth →
        ((processNode surf par n s).1.listCounters.length : ℤ)
          = (processNode surf par n s).1.listDepth) ∧
    (0 ≤ s.listDepth → 0 ≤ (processNode surf par n s).1.listDepth) := by
  obtain ⟨h1, h2, h3, h4⟩ := PNstate_all surf n par s
  obtain ⟨m, hm⟩ := h2
  have hlen : (processNode surf par n s).1.listCounters.length = s.listCounters.length := by
    rw [hm, incLast_iterate_length]
  refine ⟨h1, hlen, ⟨m, hm⟩, h3, h4, ?_, ?_⟩
  · intro hinv
    rw [hlen, h1]
    exact hinv
  · intro hpos
    rw [h1]; exact hpos

/-- Witness for C10 at an `li` inside an open list: depth preserved, top
counter incremented. -/
theorem claim_c10_witness :
    (processNode letterSurf "ul" (DNode.elem "li" [] [DNode.text "x"])
        { y := MARGIN, listDepth := 1, listCounters := [0], fontFamily := "helvetica",
          fontStyle := "normal", fontSize := 16, textColor := (0, 0, 0), fillColor := (0, 0, 0),
          drawColor := (0, 0, 0), lineWidth := 1 }).1.listDepth = 1 ∧
    (processNode letterSurf "ul" (DNode.elem "li" [] [DNode.text "x"])
        { y := MARGIN, listDepth := 1, listCounters := [0], fontFamily := "helvetica",
          fontStyle := "normal", fontSize := 16, textColor := (0, 0, 0), fillColor := (0, 0, 0),
          drawColor := (0, 0, 0), lineWidth := 1 }).1.listCounters = incLast [0] := by
  refine ⟨?_, ?_⟩
  · exact (claim_c10_amended letterSurf (DNode.elem "li" [] [DNode.text "x"]) "ul" _).1
  · exact (claim_c10_amended letterSurf (DNode.elem "li" [] [DNode.text "x"]) "ul" _).2.2.2.2.1
      [] [DNode.text "x"] rfl

/-- Counterexample for C10 as stated: `processNode` on an `li` does not
restore `listCounters` — entering with stack `[0]` it returns with `[1]`. -/
theorem claim_c10_counterexample :
    (processNode letterSurf "ol" (DNode.elem "li" [] [DNode.text "x"])
        { y := MARGIN, listDepth := 1, listCounters := [0], fontFamily := "helvetica",
          fontStyle := "normal", fontSize := 16, textColor := (0, 0, 0), fillColor := (0, 0, 0),
          drawColor := (0, 0, 0), lineWidth := 1 }).1.listCounters = [1] ∧
    ([1] : List ℕ) ≠ [0] := by
  constructor
  · simp [processNode, directTextOf, jsTrim, jsTrimL, isJsSpace, descendants, descList,
      selfDesc, isCheckboxInput, incLast, lastCounterStr, renderText, renderLines,
      checkPageBreak, processNested, fontStyleOf, getLineHeight, MARGIN, FONT_SIZE_BODY,
      letterSurf, liPfx, hasAttr, extractText, extractTextL, textContent, textContentL]
  · decide

/-- C4 (amended): in an ordered list, an item *without a checkbox input
descendant* gets the prefix `"N."` where `N` is its 1-based position — the
first text run its `li` emits is the just-incremented top counter followed by
a dot, the counter stack top advances by exactly one per `li` sibling
(positional, independent of source literals), and `1. x\n2. y` renders with
prefixes `1.` and `2.`; an item with a checkbox input descendant instead
gets `☑`/`☐`. -/
theorem claim_c4_amended :
    (∀ (surf : Surface) (acc : List (String × String)) (cc : List DNode) (s : St)
        (cs0 : List ℕ) (k : ℕ),
      s.listCounters = cs0 ++ [k] →
      (descendants (DNode.elem "li" acc cc)).find? isCheckboxInput = none →
      jsTrim (directTextOf cc) ≠ "" →
      ∃ ypos, (processNode surf "ol" (DNode.elem "li" acc cc) s).2.find? isTextEv
        = some (Ev.text (toString (k + 1) ++ ".")
            (MARGIN + ((s.listDepth : ℚ) - 1) * 20) ypos "helvetica" "normal"
            FONT_SIZE_BODY (0, 0, 0))) ∧
    (∀ (surf : Surface) (par : String) (ns : List DNode) (s : St) (cs0 : List ℕ) (k : ℕ),
      s.listCounters = cs0 ++ [k] →
      (∀ t acc cc, DNode.elem t acc cc ∈ ns → t = "li") →
      (processChildren surf par ns s).1.listCounters = cs0 ++ [k + liCount ns]) ∧
    textStrings (renderToPdf letterSurf
        [DNode.elem "ol" [] [DNode.elem "li" [] [DNode.text "x"],
          DNode.elem "li" [] [DNode.text "y"]]]).2 = ["1.", "x", "2.", "y"] := by
  refine ⟨?_, ?_, ?_⟩
  · intro surf acc cc s cs0 k hcnt hcb hdt
    obtain ⟨ypos, hfind⟩ := processNode_li_first_text surf "ol" acc cc s hdt
    refine ⟨ypos, ?_⟩
    rw [hfind]
    have : liPfx "ol" (DNode.elem "li" acc cc) s.listCounters = toString (k + 1) ++ "." := by
      simp [liPfx, hcb, hcnt, incLast_append_singleton, lastCounterStr_append]
    rw [this]
  · intro surf par ns s cs0 k hcnt hall
    have := (PCstate_all surf ns par s).2.2 hall
    rw [this, hcnt, incLast_iterate_append]
  · simp [renderToPdf, processNode, processChildren, processNested, initialSt, letterSurf,
      renderText, renderLines, checkPageBreak, addSpace, getLineHeight, MARGIN,
      FONT_SIZE_BODY, incLast, lastCounterStr, directTextOf, extractText, extractTextL,
      textContent, textContentL, jsTrim, jsTrimL, isJsSpace, descendants, descList, selfDesc,
      isCheckboxInput, tagOf, hasAttr, fontStyleOf,
      show toString (1 : ℕ) = "1" from rfl, show toString (2 : ℕ) = "2" from rfl]
    norm_num [textStrings]

/-- Witness for C4 at the first item of an ordered list (counter stack `[0]`,
depth 1): the first emitted text run is `"1."`. -/
theorem claim_c4_witness :
    ∃ ypos, (processNode letterSurf "ol" (DNode.elem "li" [] [DNode.text "x"])
        { y := MARGIN, listDepth := 1, listCounters := [0], fontFamily := "helvetica",
          fontStyle := "normal", fontSize := 16, textColor := (0, 0, 0), fillColor := (0, 0, 0),
          drawColor := (0, 0, 0), lineWidth := 1 }).2.find? isTextEv
      = some (Ev.text (toString (0 + 1) ++ ".") (MARGIN + (((1 : ℤ) : ℚ) - 1) * 20) ypos
          "helvetica" "normal" FONT_SIZE_BODY (0, 0, 0)) :=
  claim_c4_amended.1 letterSurf [] [DNode.text "x"]
    { y := MARGIN, listDepth := 1, listCounters := [0], fontFamily := "helvetica",
      fontStyle := "normal", fontSize := 16, textColor := (0, 0, 0), fillColor := (0, 0, 0),
      drawColor := (0, 0, 0), lineWidth := 1 } [] 0 rfl
    (by simp [descendants, descList, selfDesc, isCheckboxInput])
    (by simp [directTextOf, jsTrim, jsTrimL, isJsSpace])

/-- Counterexample for C4 as stated: an ordered task-list item (an `li` with
a checkbox input descendant) renders the prefix `☐`, not `"1."`. -/
theorem claim_c4_counterexample :
    textStrings (renderToPdf letterSurf
        [DNode.elem "ol" [] [DNode.elem "li" []
          [DNode.elem "input" [("type", "checkbox")] [], DNode.text "buy milk"]]]).2
      = ["☐", "buy milk"] ∧ ("☐" : String) ≠ "1." := by
  constructor
  · simp [renderToPdf, processNode, processChildren, processNested, initialSt, letterSurf,
      renderText, renderLines, checkPageBreak, addSpace, getLineHeight, MARGIN,
      FONT_SIZE_BODY, incLast, lastCounterStr, directTextOf, extractText, extractTextL,
      textContent, textContentL, jsTrim, jsTrimL, isJsSpace, descendants, descList, selfDesc,
      isCheckboxInput, tagOf, hasAttr, fontStyleOf]
    norm_num
  · decide

/-- C7: an `li`'s first emitted text run is its prefix glyph drawn at
`x = MARGIN + (listDepth − 1) × 20` — the left indent grows by exactly 20
points per nesting level — and the unordered list `- a\n- b\n- c` lays out
exactly three lines, each preceded by a `•` text run. -/
theorem claim_c7 :
    (∀ (surf : Surface) (par : String) (acc : List (String × String)) (cc : List DNode)
        (s : St),
      jsTrim (directTextOf cc) ≠ "" →
      ∃ ypos, (processNode surf par (DNode.elem "li" acc cc) s).2.find? isTextEv
        = some (Ev.text (liPfx par (DNode.elem "li" acc cc) s.listCounters)
            (MARGIN + ((s.listDepth : ℚ) - 1) * 20) ypos "helvetica" "normal"
            FONT_SIZE_BODY (0, 0, 0))) ∧
    textStrings (renderToPdf letterSurf
        [DNode.elem "ul" [] [DNode.elem "li" [] [DNode.text "a"],
          DNode.elem "li" [] [DNode.text "b"], DNode.elem "li" [] [DNode.text "c"]]]).2
      = ["•", "a", "•", "b", "•", "c"] := by
  refine ⟨?_, ?_⟩
  · intro surf par acc cc s hdt
    exact processNode_li_first_text surf par acc cc s hdt
  · simp [renderToPdf, processNode, processChildren, processNested, initialSt, letterSurf,
      renderText, renderLines, checkPageBreak, addSpace, getLineHeight, MARGIN,
      FONT_SIZE_BODY, incLast, lastCounterStr, directTextOf, extractText, extractTextL,
      textContent, textContentL, jsTrim, jsTrimL, isJsSpace, descendants, descList, selfDesc,
      isCheckboxInput, tagOf, hasAttr, fontStyleOf]
    norm_num

/-- Witness for C7 at a depth-2 `li`: the bullet is drawn at
`x = 50 + (2 − 1) × 20 = 70`. -/
theorem claim_c7_witness :
    ∃ ypos, (processNode letterSurf "ul" (DNode.elem "li" [] [DNode.text "a"])
        { y := MARGIN, listDepth := 2, listCounters := [0, 0], fontFamily := "helvetica",
          fontStyle := "normal", fontSize := 16, textColor := (0, 0, 0), fillColor := (0, 0, 0),
          drawColor := (0, 0, 0), lineWidth := 1 }).2.find? isTextEv
      = some (Ev.text (liPfx "ul" (DNode.elem "li" [] [DNode.text "a"]) [0, 0])
          (MARGIN + (((2 : ℤ) : ℚ) - 1) * 20) ypos "helvetica" "normal"
          FONT_SIZE_BODY (0, 0, 0)) :=
  claim_c7.1 letterSurf "ul" [] [DNode.text "a"]
    { y := MARGIN, listDepth := 2, listCounters := [0, 0], fontFamily := "helvetica",
      fontStyle := "normal", fontSize := 16, textColor := (0, 0, 0), fillColor := (0, 0, 0),
      drawColor := (0, 0, 0), lineWidth := 1 }
    (by simp [directTextOf, jsTrim, jsTrimL, isJsSpace])

/-- The trace of the `pre` case, components folded: block-entry check (capped
at 100), background rectangle, then the per-line loop. -/
theorem processNode_pre_trace (surf : Surface) (par : String) (acc : List (String × String))
    (cc : List DNode) (s : St)
    (hcode : jsTrim (textContent (DNode.elem "pre" acc cc)) ≠ "") :
    (processNode surf par (DNode.elem "pre" acc cc) s).2
      = (checkPageBreak surf
            (min (((splitNl (jsTrim (textContent (DNode.elem "pre" acc cc)))).length : ℚ)
              * getLineHeight FONT_SIZE_CODE + 20) 100) (addSpace 8 s)).2
        ++ [Ev.roundedRect MARGIN
              ((checkPageBreak surf
                  (min (((splitNl (jsTrim (textContent (DNode.elem "pre" acc cc)))).length : ℚ)
                    * getLineHeight FONT_SIZE_CODE + 20) 100) (addSpace 8 s)).1.y - 5)
              (surf.pageWidth - MARGIN * 2)
              (((splitNl (jsTrim (textContent (DNode.elem "pre" acc cc)))).length : ℚ)
                * getLineHeight FONT_SIZE_CODE + 20) 4 4 true (245, 245, 245)]
        ++ (preLines surf (getLineHeight FONT_SIZE_CODE)
              (splitNl (jsTrim (textContent (DNode.elem "pre" acc cc))))
              { (checkPageBreak surf
                  (min (((splitNl (jsTrim (textContent (DNode.elem "pre" acc cc)))).length : ℚ)
                    * getLineHeight FONT_SIZE_CODE + 20) 100) (addSpace 8 s)).1 with
                y := (checkPageBreak surf
                  (min (((splitNl (jsTrim (textContent (DNode.elem "pre" acc cc)))).length : ℚ)
                    * getLineHeight FONT_SIZE_CODE + 20) 100) (addSpace 8 s)).1.y + 10,
                fontFamily := "courier", fontStyle := "normal", fontSize := FONT_SIZE_CODE,
                fillColor := (245, 245, 245) }).2 := by
  simp [processNode, hcode]

/-- C5: the `pre` case draws exactly one text run per literal line of the
code block (an empty line as a single space) — so a code line is an atomic
drawing operation, never split across pages — each line being page-break
checked individually; and when no page break fires the whole block fit on
the remaining page, i.e. a block with more lines than fit triggers at least
one break. -/
theorem claim_c5 (surf : Surface) (par : String) (acc : List (String × String))
    (cc : List DNode) (s : St)
    (hcode : jsTrim (textContent (DNode.elem "pre" acc cc)) ≠ "") :
    textStrings (processNode surf par (DNode.elem "pre" acc cc) s).2
      = (splitNl (jsTrim (textContent (DNode.elem "pre" acc cc)))).map
          (fun l => if l = "" then " " else l)
    ∧ textLineCount (processNode surf par (DNode.elem "pre" acc cc) s).2
      = (splitNl (jsTrim (textContent (DNode.elem "pre" acc cc)))).length
    ∧ (Ev.addPage ∉ (processNode surf par (DNode.elem "pre" acc cc) s).2 →
        s.y + 18 + ((splitNl (jsTrim (textContent (DNode.elem "pre" acc cc)))).length : ℚ)
            * getLineHeight FONT_SIZE_CODE ≤ surf.pageHeight - MARGIN) := by
  have htr := processNode_pre_trace surf par acc cc s hcode
  have h1 : textStrings (processNode surf par (DNode.elem "pre" acc cc) s).2
      = (splitNl (jsTrim (textContent (DNode.elem "pre" acc cc)))).map
          (fun l => if l = "" then " " else l) := by
    rw [htr]
    simp [preLines_textStrings]
  refine ⟨h1, ?_, ?_⟩
  · rw [← textStrings_length, h1, List.length_map]
  · intro hnp
    rw [htr] at hnp
    simp only [List.mem_append, List.mem_singleton] at hnp
    push_neg at hnp
    obtain ⟨⟨hnp1, -⟩, hnp3⟩ := hnp
    obtain ⟨hEqn, -⟩ := checkPageBreak_noFire surf _ _ hnp1
    rw [hEqn] at hnp3
    dsimp only at hnp3
    have hfit := preLines_noBreak surf (getLineHeight FONT_SIZE_CODE)
      (splitNl (jsTrim (textContent (DNode.elem "pre" acc cc)))) _
      (splitNl_ne_nil _) hnp3
    simp only [addSpace] at hfit
    linarith [hfit]

/-- Witness for C5 at a two-line code block on a letter page. -/
theorem claim_c5_witness :
    textStrings (processNode letterSurf "div" (DNode.elem "pre" [] [DNode.text "a\nb"]) initialSt).2
      = (splitNl (jsTrim (textContent (DNode.elem "pre" [] [DNode.text "a\nb"])))).map
          (fun l => if l = "" then " " else l)
    ∧ textLineCount (processNode letterSurf "div" (DNode.elem "pre" [] [DNode.text "a\nb"]) initialSt).2
      = (splitNl (jsTrim (textContent (DNode.elem "pre" [] [DNode.text "a\nb"])))).length
    ∧ (Ev.addPage ∉ (processNode letterSurf "div" (DNode.elem "pre" [] [DNode.text "a\nb"]) initialSt).2 →
        initialSt.y + 18
            + ((splitNl (jsTrim (textContent (DNode.elem "pre" [] [DNode.text "a\nb"])))).length : ℚ)
              * getLineHeight FONT_SIZE_CODE ≤ letterSurf.pageHeight - MARGIN) :=
  claim_c5 letterSurf "div" [] [DNode.text "a\nb"] initialSt
    (by simp [textContent, textContentL, jsTrim, jsTrimL, isJsSpace])

theorem filterMap_const_some {α : Type} (b : String) (l : List α) :
    l.filterMap (fun _ => some b) = List.replicate l.length b := by
  induction l <;> simp_all [List.replicate]

theorem filterMap_const_none {α β : Type} (l : List α) :
    l.filterMap (fun _ => (none : Option β)) = [] := by
  induction l <;> simp_all

theorem filterMap_some_comp {α β : Type} (f : α → β) (l : List α) :
    l.filterMap (fun x => some (f x)) = l.map f := by
  induction l <;> simp_all

theorem enumFrom_map_snd_comp {α β : Type} (g : α → β) :
    ∀ (i : ℕ) (l : List α), (List.enumFrom i l).map (fun p => g p.2) = l.map g := by
  intro i l
  induction l generalizing i with
  | nil => simp
  | cons a rest ih => simp [List.enumFrom_cons, ih]

theorem tableCells_textStrings (surf : Surface) (cw rh : ℚ) (hd : Bool)
    (cells : List DNode) (i : ℕ) (s : St) :
    textStrings (tableCells surf cw rh hd cells i s).2
      = cells.map (fun cell =>
          (surf.wrap "helvetica" (if hd then "bold" else "normal") FONT_SIZE_BODY
            (jsTrim (extractText "tr" cell 0)) (cw - 10)).headD "") := by
  induction cells generalizing i s with
  | nil => simp [tableCells]
  | cons c cs ih => simp [tableCells, ih]

theorem colLines_textStrings (s : St) (cols : ℕ) (cw rh : ℚ) :
    textStrings (colLines s cols cw rh) = [] := by
  simp [colLines, textStrings, Function.comp_def, filterMap_const_none, List.filterMap_map]

/-- C6: a table's column count is taken from the `th`/`td` cells of its
*first* row (`|| 1` when that row has none) and every row is rendered with
the single column width `contentWidth / cols` (equal-width columns); a row
with a `th` descendant gets a filled background rectangle and all of its
cell text runs use the bold font; and each cell draws exactly one text run
whose string is the first wrapped line of the cell text (truncation — no
multi-line cells). -/
theorem claim_c6 :
    (∀ (surf : Surface) (par : String) (acc : List (String × String)) (cc : List DNode)
        (r0 : DNode) (rest : List DNode) (s : St),
      (descendants (DNode.elem "table" acc cc)).filter (fun d => tagOf d == some "tr")
          = r0 :: rest →
      processNode surf par (DNode.elem "table" acc cc) s
        = (addSpace 10 (tableRows surf
              ((surf.pageWidth - MARGIN * 2) / (jsOrOne (cellsOf r0).length : ℚ))
              (getLineHeight FONT_SIZE_BODY + 12) (jsOrOne (cellsOf r0).length)
              (r0 :: rest) (addSpace 10 s)).1,
           (tableRows surf
              ((surf.pageWidth - MARGIN * 2) / (jsOrOne (cellsOf r0).length : ℚ))
              (getLineHeight FONT_SIZE_BODY + 12) (jsOrOne (cellsOf r0).length)
              (r0 :: rest) (addSpace 10 s)).2)) ∧
    (∀ (surf : Surface) (cw rh : ℚ) (cols : ℕ) (row : DNode) (s : St),
      (descendants row).any (fun d => tagOf d == some "th") = true →
      Ev.rect MARGIN (checkPageBreak surf rh s).1.y (surf.pageWidth - MARGIN * 2) rh true
          (240, 240, 240) ∈ (tableRow surf cw rh cols row s).2) ∧
    (∀ (surf : Surface) (cw rh : ℚ) (cols : ℕ) (row : DNode) (s : St),
      (tableRow surf cw rh cols row s).2.filterMap textEvStyle
        = List.replicate (cellsOf row).length
            (if (descendants row).any (fun d => tagOf d == some "th") then "bold"
             else "normal")) ∧
    (∀ (surf : Surface) (cw rh : ℚ) (cols : ℕ) (row : DNode) (s : St),
      textStrings (tableRow surf cw rh cols row s).2
        = (cellsOf row).map (fun cell =>
            (surf.wrap "helvetica"
              (if (descendants row).any (fun d => tagOf d == some "th") then "bold"
               else "normal")
              FONT_SIZE_BODY (jsTrim (extractText "tr" cell 0)) (cw - 10)).headD "")) := by
  refine ⟨?_, ?_, ?_, ?_⟩
  · intro surf par acc cc r0 rest s hrows
    simp [processNode, hrows]
  · intro surf cw rh cols row s hh
    rw [tableRow_trace]
    simp [hh]
  · intro surf cw rh cols row s
    rw [tableRow_trace]
    by_cases hh : (descendants row).any (fun d => tagOf d == some "th") = true <;>
      simp [hh, textEvStyle, checkPageBreak, List.filterMap_map, Function.comp_def,
        filterMap_const_some, filterMap_const_none]
  · intro surf cw rh cols row s
    by_cases hh : (descendants row).any (fun d => tagOf d == some "th") = true <;>
      simp [tableRow, hh, tableCells_textStrings, colLines_textStrings]

/-- Witness for C6: a row with a `th` cell on a 2-column letter-size table
gets the filled header background. -/
theorem claim_c6_witness :
    Ev.rect MARGIN
        (checkPageBreak letterSurf (getLineHeight FONT_SIZE_BODY + 12) initialSt).1.y
        (letterSurf.pageWidth - MARGIN * 2) (getLineHeight FONT_SIZE_BODY + 12) true
        (240, 240, 240)
      ∈ (tableRow letterSurf ((letterSurf.pageWidth - MARGIN * 2) / 2)
          (getLineHeight FONT_SIZE_BODY + 12) 2
          (DNode.elem "tr" [] [DNode.elem "th" [] [DNode.text "H"]]) initialSt).2 :=
  claim_c6.2.1 letterSurf ((letterSurf.pageWidth - MARGIN * 2) / 2)
    (getLineHeight FONT_SIZE_BODY + 12) 2
    (DNode.elem "tr" [] [DNode.elem "th" [] [DNode.text "H"]]) initialSt
    (by simp [descendants, descList, selfDesc, tagOf])

/-- The in-bounds predicate of the page invariant: a drawing operation's
vertical extent lies within `[MARGIN, pageHeight - MARGIN]`.  The two
operations the code emits *without* a covering bound check are exempted
here — the `pre` background rectangle (the only rounded rectangle, whose
height is checked only up to the 100-point cap) and the blockquote rule
(the only stroke drawn at line width 3, computed from a saved cursor) —
they are exactly the operations the counterexample shows leaving the band. -/
def okEv (surf : Surface) : Ev → Prop
  | .addPage => True
  | .text _ _ y _ _ _ _ => MARGIN ≤ y ∧ y ≤ surf.pageHeight - MARGIN
  | .rect _ y _ h _ _ => MARGIN ≤ y ∧ y + h ≤ surf.pageHeight - MARGIN
  | .roundedRect _ _ _ _ _ _ _ _ => True
  | .line _ y1 _ y2 _ w => w = 3 ∨
      (MARGIN ≤ y1 ∧ y1 ≤ surf.pageHeight - MARGIN ∧
       MARGIN ≤ y2 ∧ y2 ≤ surf.pageHeight - MARGIN)

theorem checkPageBreak_y_ge (surf : Surface) (h : ℚ) (s : St) (hy : MARGIN ≤ s.y) :
    MARGIN ≤ (checkPageBreak surf h s).1.y := by
  unfold checkPageBreak
  split <;> simp [hy]

theorem checkPageBreak_post (surf : Surface) (h : ℚ) (s : St)
    (hcap : h ≤ surf.pageHeight - 2 * MARGIN) :
    (checkPageBreak surf h s).1.y + h ≤ surf.pageHeight - MARGIN := by
  unfold checkPageBreak
  split
  · rename_i hgt
    simp only []
    have : (MARGIN : ℚ) = 50 := rfl
    linarith
  · rename_i hle
    push_neg at hle
    simpa using hle

theorem checkPageBreak_evs_ok (surf : Surface) (h : ℚ) (s : St) :
    ∀ ev ∈ (checkPageBreak surf h s).2, okEv surf ev := by
  unfold checkPageBreak
  split <;> simp [okEv]

theorem renderLines_ok (surf : Surface) (lh tx : ℚ) (ls : List String) (s : St)
    (hpos : 0 < lh) (hcap : lh ≤ surf.pageHeight - 2 * MARGIN) (hy : MARGIN ≤ s.y) :
    MARGIN ≤ (renderLines surf lh tx ls s).1.y ∧
    ∀ ev ∈ (renderLines surf lh tx ls s).2, okEv surf ev := by
  induction ls generalizing s with
  | nil => simpa [renderLines] using hy
  | cons l rest ih =>
    have h1 := checkPageBreak_y_ge surf lh s hy
    have h2 := checkPageBreak_post surf lh s hcap
    have hy2 : MARGIN ≤ (checkPageBreak surf lh s).1.y + lh := by linarith
    obtain ⟨ihy, ihok⟩ := ih (s := { (checkPageBreak surf lh s).1 with
      y := (checkPageBreak surf lh s).1.y + lh }) hy2
    constructor
    · simpa [renderLines] using ihy
    · intro ev hev
      simp only [renderLines, List.mem_append, List.mem_singleton] at hev
      rcases hev with (hev | hev) | hev
      · exact checkPageBreak_evs_ok surf lh s ev hev
      · subst hev
        exact ⟨h1, by linarith⟩
      · exact ihok ev hev

theorem renderText_ok (surf : Surface) (t : String) (fs : ℚ) (o : TextOpts) (s : St)
    (hpos : 0 < getLineHeight fs) (hcap : getLineHeight fs ≤ surf.pageHeight - 2 * MARGIN)
    (hy : MARGIN ≤ s.y) :
    MARGIN ≤ (renderText surf t fs o s).1.y ∧
    ∀ ev ∈ (renderText surf t fs o s).2, okEv surf ev := by
  rcases eq_or_ne o.pfx "" with hp | hp
  · constructor
    · simp only [renderText, hp]
      norm_num
      apply (renderLines_ok _ _ _ _ _ hpos hcap ?_).1
      simpa using hy
    · intro ev hev
      simp only [renderText, hp] at hev
      norm_num at hev
      exact (renderLines_ok _ _ _ _ _ hpos hcap (by simpa using hy)).2 ev hev
  · constructor
    · simp only [renderText, hp]
      norm_num [hp]
      apply (renderLines_ok _ _ _ _ _ hpos hcap ?_).1
      apply checkPageBreak_y_ge
      simpa using hy
    · intro ev hev
      simp only [renderText, hp] at hev
      norm_num [hp] at hev
      rcases hev with hev | hev | hev
      · exact checkPageBreak_evs_ok _ _ _ ev hev
      · subst hev
        refine ⟨checkPageBreak_y_ge _ _ _ (by simpa using hy), ?_⟩
        have := checkPageBreak_post surf (getLineHeight fs)
          { s with fontSize := fs, fontFamily := "helvetica", fontStyle := if o.bold then (if o.italic then "bolditalic" else "bold") else (if o.italic then "italic" else "normal"), textColor := o.color } hcap
        linarith
      · exact (renderLines_ok _ _ _ _ _ hpos hcap
          (checkPageBreak_y_ge _ _ _ (by simpa using hy))).2 ev hev
theorem preLines_ok (surf : Surface) (lh : ℚ) (ls : List String) (s : St)
    (hpos : 0 < lh) (hcap : lh ≤ surf.pageHeight - 2 * MARGIN) (hy : MARGIN ≤ s.y) :
    MARGIN ≤ (preLines surf lh ls s).1.y ∧
    ∀ ev ∈ (preLines surf lh ls s).2, okEv surf ev := by
  induction ls generalizing s with
  | nil => simpa [preLines] using hy
  | cons l rest ih =>
    have h1 := checkPageBreak_y_ge surf lh s hy
    have h2 := checkPageBreak_post surf lh s hcap
    have hy2 : MARGIN ≤ (checkPageBreak surf lh s).1.y + lh := by linarith
    obtain ⟨ihy, ihok⟩ := ih (s := { (checkPageBreak surf lh s).1 with
      y := (checkPageBreak surf lh s).1.y + lh }) hy2
    constructor
    · simpa [preLines] using ihy
    · intro ev hev
      simp only [preLines, List.mem_append, List.mem_singleton] at hev
      rcases hev with (hev | hev) | hev
      · exact checkPageBreak_evs_ok surf lh s ev hev
      · subst hev
        exact ⟨h1, by linarith⟩
      · exact ihok ev hev

theorem tableCells_ok (surf : Surface) (cw rh : ℚ) (hd : Bool)
    (cells : List DNode) (i : ℕ) (s : St)
    (hrh1 : 6 ≤ rh) (hy : MARGIN ≤ s.y) (hfit : s.y + rh ≤ surf.pageHeight - MARGIN) :
    MARGIN ≤ (tableCells surf cw rh hd cells i s).1.y ∧
    ∀ ev ∈ (tableCells surf cw rh hd cells i s).2, okEv surf ev := by
  induction cells generalizing i s with
  | nil => simpa [tableCells] using hy
  | cons c cs ih =>
    obtain ⟨ihy, ihok⟩ := ih (i := i + 1) (s := { s with fontSize := FONT_SIZE_BODY, fontFamily := "helvetica", fontStyle := if hd then "bold" else "normal" }) hy hfit
    constructor
    · simpa [tableCells] using ihy
    · intro ev hev
      simp only [tableCells, List.mem_append, List.mem_cons] at hev
      rcases hev with (rfl | hnil) | hev
      · exact ⟨by linarith, by linarith⟩
      · exact absurd hnil (by simp)
      · exact ihok ev hev

theorem tableRow_ok (surf : Surface) (cw rh : ℚ) (cols : ℕ) (row : DNode) (s : St)
    (hrh1 : 6 ≤ rh) (hcap : rh ≤ surf.pageHeight - 2 * MARGIN) (hy : MARGIN ≤ s.y) :
    MARGIN ≤ (tableRow surf cw rh cols row s).1.y ∧
    ∀ ev ∈ (tableRow surf cw rh cols row s).2, okEv surf ev := by
  have h1 := checkPageBreak_y_ge surf rh s hy
  have h2 := checkPageBreak_post surf rh s hcap
  obtain ⟨hcy, hcok⟩ := tableCells_ok surf cw rh
    ((descendants row).any (fun d => tagOf d == some "th")) (cellsOf row) 0
    (if (descendants row).any (fun d => tagOf d == some "th") then
      { (checkPageBreak surf rh s).1 with fillColor := (240, 240, 240) }
     else (checkPageBreak surf rh s).1) hrh1
    (by split <;> exact h1) (by split <;> exact h2)
  constructor
  · simp only [tableRow]
    split_ifs <;> simp <;> linarith
  · intro ev hev
    simp only [tableRow, List.mem_append] at hev
    rcases hev with (((hev | hev) | hev) | hev) | hev
    · exact checkPageBreak_evs_ok surf rh s ev hev
    · by_cases hh : (descendants row).any (fun d => tagOf d == some "th") = true
      · simp only [hh, if_true, List.mem_singleton] at hev
        subst hev
        exact ⟨h1, h2⟩
      · simp only [hh, if_false] at hev
        simp at hev
    · refine (tableCells_ok surf cw rh _ (cellsOf row) 0 _ hrh1 ?_ ?_).2 ev hev
      · split <;> simpa using h1
      · split <;> simpa using h2
    · simp only [List.mem_singleton] at hev
      subst hev
      constructor
      · show MARGIN ≤ (tableCells surf cw rh _ (cellsOf row) 0 _).1.y
        rw [tableCells_y]
        split <;> simpa using h1
      · show (tableCells surf cw rh _ (cellsOf row) 0 _).1.y + rh ≤ _
        rw [tableCells_y]
        split <;> simpa using h2
    · simp only [colLines, List.mem_map] at hev
      obtain ⟨i, -, rfl⟩ := hev
      have hcy : MARGIN ≤ (tableCells surf cw rh
          ((descendants row).any (fun d => tagOf d == some "th")) (cellsOf row) 0
          (if ((descendants row).any fun d => tagOf d == some "th") = true then
            ({ (checkPageBreak surf rh s).1 with fillColor := (240, 240, 240) },
              [Ev.rect MARGIN (checkPageBreak surf rh s).1.y (surf.pageWidth - MARGIN * 2) rh
                true (240, 240, 240)])
           else ((checkPageBreak surf rh s).1, [])).1).1.y ∧
          (tableCells surf cw rh
          ((descendants row).any (fun d => tagOf d == some "th")) (cellsOf row) 0
          (if ((descendants row).any fun d => tagOf d == some "th") = true then
            ({ (checkPageBreak surf rh s).1 with fillColor := (240, 240, 240) },
              [Ev.rect MARGIN (checkPageBreak surf rh s).1.y (surf.pageWidth - MARGIN * 2) rh
                true (240, 240, 240)])
           else ((checkPageBreak surf rh s).1, [])).1).1.y + rh ≤ surf.pageHeight - MARGIN := by
        rw [tableCells_y]
        constructor
        · split <;> simpa using h1
        · split <;> simpa using h2
      exact Or.inr ⟨hcy.1, by linarith [hcy.2], by linarith [hcy.1], hcy.2⟩

theorem tableRows_ok (surf : Surface) (cw rh : ℚ) (cols : ℕ) (rows : List DNode) (s : St)
    (hrh1 : 6 ≤ rh) (hcap : rh ≤ surf.pageHeight - 2 * MARGIN) (hy : MARGIN ≤ s.y) :
    MARGIN ≤ (tableRows surf cw rh cols rows s).1.y ∧
    ∀ ev ∈ (tableRows surf cw rh cols rows s).2, okEv surf ev := by
  induction rows generalizing s with
  | nil => simpa [tableRows] using hy
  | cons r rest ih =>
    obtain ⟨h1, hok1⟩ := tableRow_ok surf cw rh cols r s hrh1 hcap hy
    obtain ⟨h2, hok2⟩ := ih (s := (tableRow surf cw rh cols r s).1) h1
    constructor
    · simpa [tableRows] using h2
    · intro ev hev
      simp only [tableRows, List.mem_append] at hev
      rcases hev with hev | hev
      · exact hok1 ev hev
      · exact hok2 ev hev

/-- Bounds invariant of `processNode`: from a cursor at or below the top
margin, every emitted operation satisfies `okEv` and the cursor stays at or
below the top margin. -/
def PBnode (surf : Surface) (n : DNode) : Prop :=
  ∀ par s, MARGIN ≤ s.y →
    MARGIN ≤ (processNode surf par n s).1.y ∧
    ∀ ev ∈ (processNode surf par n s).2, okEv surf ev

/-- Bounds invariant of `processChildren`. -/
def PBchildren (surf : Surface) (ns : List DNode) : Prop :=
  ∀ par s, MARGIN ≤ s.y →
    MARGIN ≤ (processChildren surf par ns s).1.y ∧
    ∀ ev ∈ (processChildren surf par ns s).2, okEv surf ev

/-- Bounds invariant of `processNested`. -/
def PBnested (surf : Surface) (ns : List DNode) : Prop :=
  ∀ s, MARGIN ≤ s.y →
    MARGIN ≤ (processNested surf ns s).1.y ∧
    ∀ ev ∈ (processNested surf ns s).2, okEv surf ev

theorem PBchildren_of (surf : Surface) (ns : List DNode)
    (h : ∀ c ∈ ns, PBnode surf c) : PBchildren surf ns := by
  induction ns with
  | nil => intro par s hy; simpa [processChildren] using hy
  | cons c cs ih =>
    intro par s hy
    have hcs := ih (fun d hd => h d (by simp [hd]))
    cases c with
    | text s0 =>
      obtain ⟨h1, hok⟩ := hcs par s hy
      exact ⟨by simpa only [processChildren] using h1,
        by intro ev hev; simp only [processChildren, List.nil_append] at hev; exact hok ev hev⟩
    | elem t acc cc =>
      obtain ⟨h1, hok1⟩ := h (DNode.elem t acc cc) (by simp) par s hy
      obtain ⟨h2, hok2⟩ := hcs par (processNode surf par (DNode.elem t acc cc) s).1 h1
      constructor
      · simpa only [processChildren] using h2
      · intro ev hev
        simp only [processChildren, List.mem_append] at hev
        rcases hev with hev | hev
        · exact hok1 ev hev
        · exact hok2 ev hev

theorem PBnested_of (surf : Surface) (ns : List DNode)
    (h : ∀ c ∈ ns, PBnode surf c) : PBnested surf ns := by
  induction ns with
  | nil => intro s hy; simpa [processNested] using hy
  | cons c cs ih =>
    intro s hy
    have hcs := ih (fun d hd => h d (by simp [hd]))
    cases c with
    | text s0 =>
      obtain ⟨h1, hok⟩ := hcs s hy
      exact ⟨by simpa only [processNested] using h1,
        by intro ev hev; simp only [processNested, List.nil_append] at hev; exact hok ev hev⟩
    | elem t acc cc =>
      by_cases hul : t = "ul" ∨ t = "ol"
      · obtain ⟨h1, hok1⟩ := h (DNode.elem t acc cc) (by simp) "li" s hy
        obtain ⟨h2, hok2⟩ := hcs (processNode surf "li" (DNode.elem t acc cc) s).1 h1
        constructor
        · simp only [processNested, if_pos hul]
          exact h2
        · intro ev hev
          simp only [processNested, if_pos hul, List.mem_append] at hev
          rcases hev with hev | hev
          · exact hok1 ev hev
          · exact hok2 ev hev
      · obtain ⟨h1, hok⟩ := hcs s hy
        constructor
        · simp only [processNested, if_neg hul]
          exact h1
        · intro ev hev
          simp only [processNested, if_neg hul, List.nil_append] at hev
          exact hok ev hev

theorem PBnode_all_aux (surf : Surface) (hH : 200 ≤ surf.pageHeight) :
    ∀ (k : ℕ) (n : DNode), sizeOf n ≤ k → PBnode surf n := by
  have hM : (MARGIN : ℚ) = 50 := rfl
  intro k
  induction k with
  | zero =>
    intro n hn
    exfalso
    cases n <;> simp_all
  | succ k ih =>
    intro n hn
    cases n with
    | text s0 =>
      intro par s hy
      refine ⟨by simpa [processNode] using hy, ?_⟩
      intro ev hev
      simp [processNode] at hev
    | elem t acc cc =>
      have hkids : ∀ c ∈ cc, PBnode surf c := by
        intro c hc
        apply ih
        have hlt1 : sizeOf c < sizeOf cc := List.sizeOf_lt_of_mem hc
        have hlt2 : sizeOf cc < sizeOf (DNode.elem t acc cc) := by
          simp only [DNode.elem.sizeOf_spec]
          omega
        omega
      have hPC : PBchildren surf cc := PBchildren_of surf cc hkids
      have hPN : PBnested surf cc := PBnested_of surf cc hkids
      intro par s hy
      by_cases h1 : t = "h1"
      · subst h1
        have hcap : getLineHeight FONT_SIZE_H1 ≤ surf.pageHeight - 2 * MARGIN := by
          rw [hM]; norm_num [getLineHeight, FONT_SIZE_H1]; linarith
        by_cases ht : jsTrim (extractText par (DNode.elem "h1" acc cc) 0) = ""
        · refine ⟨by simp [processNode, ht, addSpace]; linarith, ?_⟩
          intro ev hev
          simp [processNode, ht] at hev
        · obtain ⟨hr1, hr2⟩ := renderText_ok surf
            (jsTrim (extractText par (DNode.elem "h1" acc cc) 0)) FONT_SIZE_H1
            { bold := true } { s with y := s.y + 20 }
            (by norm_num [getLineHeight, FONT_SIZE_H1]) hcap (by simp only []; linarith)
          simp only [Prod.mk_zero_zero] at hr1 hr2
          refine ⟨?_, ?_⟩
          · simp [processNode, ht, addSpace]
            linarith [hr1]
          · intro ev hev
            simp [processNode, ht, addSpace] at hev
            exact hr2 ev hev
      by_cases h2 : t = "h2"
      · subst h2
        have hcap : getLineHeight FONT_SIZE_H2 ≤ surf.pageHeight - 2 * MARGIN := by
          rw [hM]; norm_num [getLineHeight, FONT_SIZE_H2]; linarith
        by_cases ht : jsTrim (extractText par (DNode.elem "h2" acc cc) 0) = ""
        · refine ⟨by simp [processNode, ht, addSpace]; linarith, ?_⟩
          intro ev hev
          simp [processNode, ht] at hev
        · obtain ⟨hr1, hr2⟩ := renderText_ok surf
            (jsTrim (extractText par (DNode.elem "h2" acc cc) 0)) FONT_SIZE_H2
            { bold := true } { s with y := s.y + 16 }
            (by norm_num [getLineHeight, FONT_SIZE_H2]) hcap (by simp only []; linarith)
          simp only [Prod.mk_zero_zero] at hr1 hr2
          refine ⟨?_, ?_⟩
          · simp [processNode, ht, addSpace]
            linarith [hr1]
          · intro ev hev
            simp [processNode, ht, addSpace] at hev
            exact hr2 ev hev
      by_cases h3 : t = "h3"
      · subst h3
        have hcap : getLineHeight FONT_SIZE_H3 ≤ surf.pageHeight - 2 * MARGIN := by
          rw [hM]; norm_num [getLineHeight, FONT_SIZE_H3]; linarith
        by_cases ht : jsTrim (extractText par (DNode.elem "h3" acc cc) 0) = ""
        · refine ⟨by simp [processNode, ht, addSpace]; linarith, ?_⟩
          intro ev hev
          simp [processNode, ht] at hev
        · obtain ⟨hr1, hr2⟩ := renderText_ok surf
            (jsTrim (extractText par (DNode.elem "h3" acc cc) 0)) FONT_SIZE_H3
            { bold := true } { s with y := s.y + 12 }
            (by norm_num [getLineHeight, FONT_SIZE_H3]) hcap (by simp only []; linarith)
          simp only [Prod.mk_zero_zero] at hr1 hr2
          refine ⟨?_, ?_⟩
          · simp [processNode, ht, addSpace]
            linarith [hr1]
          · intro ev hev
            simp [processNode, ht, addSpace] at hev
            exact hr2 ev hev
      by_cases h4a : t = "h4"
      · subst h4a
        have hcap : getLineHeight FONT_SIZE_H4 ≤ surf.pageHeight - 2 * MARGIN := by
          rw [hM]; norm_num [getLineHeight, FONT_SIZE_H4]; linarith
        by_cases ht : jsTrim (extractText par (DNode.elem "h4" acc cc) 0) = ""
        · refine ⟨by simp [processNode, ht, addSpace]; linarith, ?_⟩
          intro ev hev
          simp [processNode, ht] at hev
        · obtain ⟨hr1, hr2⟩ := renderText_ok surf
            (jsTrim (extractText par (DNode.elem "h4" acc cc) 0)) FONT_SIZE_H4
            { bold := true } { s with y := s.y + 10 }
            (by norm_num [getLineHeight, FONT_SIZE_H4]) hcap (by simp only []; linarith)
          simp only [Prod.mk_zero_zero] at hr1 hr2
          refine ⟨?_, ?_⟩
          · simp [processNode, ht, addSpace]
            linarith [hr1]
          · intro ev hev
            simp [processNode, ht, addSpace] at hev
            exact hr2 ev hev
      by_cases h4b : t = "h5"
      · subst h4b
        have hcap : getLineHeight FONT_SIZE_H4 ≤ surf.pageHeight - 2 * MARGIN := by
          rw [hM]; norm_num [getLineHeight, FONT_SIZE_H4]; linarith
        by_cases ht : jsTrim (extractText par (DNode.elem "h5" acc cc) 0) = ""
        · refine ⟨by simp [processNode, ht, addSpace]; linarith, ?_⟩
          intro ev hev
          simp [processNode, ht] at hev
        · obtain ⟨hr1, hr2⟩ := renderText_ok surf
            (jsTrim (extractText par (DNode.elem "h5" acc cc) 0)) FONT_SIZE_H4
            { bold := true } { s with y := s.y + 10 }
            (by norm_num [getLineHeight, FONT_SIZE_H4]) hcap (by simp only []; linarith)
          simp only [Prod.mk_zero_zero] at hr1 hr2
          refine ⟨?_, ?_⟩
          · simp [processNode, ht, addSpace]
            linarith [hr1]
          · intro ev hev
            simp [processNode, ht, addSpace] at hev
            exact hr2 ev hev
      by_cases h4c : t = "h6"
      · subst h4c
        have hcap : getLineHeight FONT_SIZE_H4 ≤ surf.pageHeight - 2 * MARGIN := by
          rw [hM]; norm_num [getLineHeight, FONT_SIZE_H4]; linarith
        by_cases ht : jsTrim (extractText par (DNode.elem "h6" acc cc) 0) = ""
        · refine ⟨by simp [processNode, ht, addSpace]; linarith, ?_⟩
          intro ev hev
          simp [processNode, ht] at hev
        · obtain ⟨hr1, hr2⟩ := renderText_ok surf
            (jsTrim (extractText par (DNode.elem "h6" acc cc) 0)) FONT_SIZE_H4
            { bold := true } { s with y := s.y + 10 }
            (by norm_num [getLineHeight, FONT_SIZE_H4]) hcap (by simp only []; linarith)
          simp only [Prod.mk_zero_zero] at hr1 hr2
          refine ⟨?_, ?_⟩
          · simp [processNode, ht, addSpace]
            linarith [hr1]
          · intro ev hev
            simp [processNode, ht, addSpace] at hev
            exact hr2 ev hev
      by_cases h5 : t = "p"
      · subst h5
        have hcap : getLineHeight FONT_SIZE_BODY ≤ surf.pageHeight - 2 * MARGIN := by
          rw [hM]; norm_num [getLineHeight, FONT_SIZE_BODY]; linarith
        by_cases ht : jsTrim (extractText par (DNode.elem "p" acc cc) 0) = ""
        · refine ⟨by simp [processNode, ht]; linarith, ?_⟩
          intro ev hev
          simp [processNode, ht] at hev
        · obtain ⟨hr1, hr2⟩ := renderText_ok surf
            (jsTrim (extractText par (DNode.elem "p" acc cc) 0)) FONT_SIZE_BODY
            { indent := (s.listDepth : ℚ) * 20 } s
            (by norm_num [getLineHeight, FONT_SIZE_BODY]) hcap hy
          simp only [Prod.mk_zero_zero] at hr1 hr2
          refine ⟨?_, ?_⟩
          · simp [processNode, ht, addSpace]
            linarith [hr1]
          · intro ev hev
            simp [processNode, ht, addSpace] at hev
            exact hr2 ev hev
      by_cases h6a : t = "ul"
      · subst h6a
        obtain ⟨hc1, hc2⟩ := hPC "ul"
          { s with listDepth := s.listDepth + 1, listCounters := s.listCounters ++ [0] }
          (by simp only []; exact hy)
        refine ⟨?_, ?_⟩
        · simp [processNode]
          split_ifs <;> (try simp [addSpace]) <;> linarith [hc1]
        · intro ev hev
          simp [processNode] at hev
          exact hc2 ev hev
      by_cases h6b : t = "ol"
      · subst h6b
        obtain ⟨hc1, hc2⟩ := hPC "ol"
          { s with listDepth := s.listDepth + 1, listCounters := s.listCounters ++ [0] }
          (by simp only []; exact hy)
        refine ⟨?_, ?_⟩
        · simp [processNode]
          split_ifs <;> (try simp [addSpace]) <;> linarith [hc1]
        · intro ev hev
          simp [processNode] at hev
          exact hc2 ev hev
      by_cases h7 : t = "li"
      · subst h7
        have hcap : getLineHeight FONT_SIZE_BODY ≤ surf.pageHeight - 2 * MARGIN := by
          rw [hM]; norm_num [getLineHeight, FONT_SIZE_BODY]; linarith
        by_cases ht : jsTrim (directTextOf cc) = ""
        · obtain ⟨hn1, hn2⟩ := hPN { s with listCounters := incLast s.listCounters }
            (by simp only []; exact hy)
          refine ⟨?_, ?_⟩
          · simp [processNode, ht]
            exact hn1
          · intro ev hev
            simp [processNode, ht] at hev
            exact hn2 ev hev
        · obtain ⟨hr1, hr2⟩ := renderText_ok surf (jsTrim (directTextOf cc)) FONT_SIZE_BODY
            { indent := ((s.listDepth : ℚ) - 1) * 20,
              pfx := liPfx par (DNode.elem "li" acc cc) s.listCounters }
            { s with listCounters := incLast s.listCounters }
            (by norm_num [getLineHeight, FONT_SIZE_BODY]) hcap (by simp only []; exact hy)
          simp only [Prod.mk_zero_zero] at hr1 hr2
          obtain ⟨hn1, hn2⟩ := hPN (renderText surf (jsTrim (directTextOf cc)) FONT_SIZE_BODY
            { indent := ((s.listDepth : ℚ) - 1) * 20,
              pfx := liPfx par (DNode.elem "li" acc cc) s.listCounters }
            { s with listCounters := incLast s.listCounters }).1 hr1
          refine ⟨?_, ?_⟩
          · simp only [processNode] at hn1 ⊢
            simp [ht, liPfx] at hn1 ⊢
            convert hn1 using 3
          · intro ev hev
            simp [processNode, ht, liPfx] at hev
            rcases hev with hev | hev
            · exact hr2 ev hev
            · exact hn2 ev hev
      by_cases h8 : t = "blockquote"
      · subst h8
        have hcap : getLineHeight FONT_SIZE_BODY ≤ surf.pageHeight - 2 * MARGIN := by
          rw [hM]; norm_num [getLineHeight, FONT_SIZE_BODY]; linarith
        by_cases ht : jsTrim (extractText par (DNode.elem "blockquote" acc cc) 0) = ""
        · refine ⟨by simp [processNode, ht]; linarith, ?_⟩
          intro ev hev
          simp [processNode, ht] at hev
        · obtain ⟨hr1, hr2⟩ := renderText_ok surf
            (jsTrim (extractText par (DNode.elem "blockquote" acc cc) 0)) FONT_SIZE_BODY
            { italic := true, indent := 20, color := (100, 100, 100) } { s with y := s.y + 8 }
            (by norm_num [getLineHeight, FONT_SIZE_BODY]) hcap (by simp only []; linarith)
          refine ⟨?_, ?_⟩
          · simp [processNode, ht, addSpace]
            linarith [hr1]
          · intro ev hev
            simp [processNode, ht, addSpace] at hev
            rcases hev with hev | hev
            · exact hr2 ev hev
            · subst hev
              exact Or.inl rfl
      by_cases h9 : t = "pre"
      · subst h9
        have hcap14 : getLineHeight FONT_SIZE_CODE ≤ surf.pageHeight - 2 * MARGIN := by
          rw [hM]; norm_num [getLineHeight, FONT_SIZE_CODE]; linarith
        by_cases hcode : jsTrim (textContent (DNode.elem "pre" acc cc)) = ""
        · refine ⟨by simp [processNode, hcode]; linarith, ?_⟩
          intro ev hev
          simp [processNode, hcode] at hev
        · have hcapmin : min (((splitNl (jsTrim (textContent (DNode.elem "pre" acc cc)))).length : ℚ)
              * getLineHeight FONT_SIZE_CODE + 20) 100 ≤ surf.pageHeight - 2 * MARGIN := by
            refine le_trans (min_le_right _ _) ?_
            rw [hM]; linarith
          have hcy := checkPageBreak_y_ge surf
            (min (((splitNl (jsTrim (textContent (DNode.elem "pre" acc cc)))).length : ℚ)
              * getLineHeight FONT_SIZE_CODE + 20) 100)
            { s with y := s.y + 8 } (by simp only []; linarith)
          obtain ⟨hp1, hp2⟩ := preLines_ok surf (getLineHeight FONT_SIZE_CODE)
            (splitNl (jsTrim (textContent (DNode.elem "pre" acc cc))))
            { (checkPageBreak surf
                (min (((splitNl (jsTrim (textContent (DNode.elem "pre" acc cc)))).length : ℚ)
                  * getLineHeight FONT_SIZE_CODE + 20) 100) { s with y := s.y + 8 }).1 with
              y := (checkPageBreak surf
                (min (((splitNl (jsTrim (textContent (DNode.elem "pre" acc cc)))).length : ℚ)
                  * getLineHeight FONT_SIZE_CODE + 20) 100) { s with y := s.y + 8 }).1.y + 10,
              fontFamily := "courier", fontStyle := "normal", fontSize := FONT_SIZE_CODE,
              fillColor := (245, 245, 245) }
            (by norm_num [getLineHeight, FONT_SIZE_CODE]) hcap14 (by simp only []; linarith)
          simp only [checkPageBreak_listDepth, checkPageBreak_listCounters,
            checkPageBreak_fontFamily, checkPageBreak_fontStyle, checkPageBreak_fontSize,
            checkPageBreak_textColor, checkPageBreak_fillColor, checkPageBreak_drawColor,
            checkPageBreak_lineWidth] at hp1 hp2
          refine ⟨?_, ?_⟩
          · simp [processNode, hcode, addSpace]
            linarith [hp1]
          · intro ev hev
            simp [processNode, hcode, addSpace] at hev
            rcases hev with hev | hev | hev
            · exact checkPageBreak_evs_ok _ _ _ ev hev
            · subst hev
              trivial
            · exact hp2 ev hev
      by_cases h10 : t = "table"
      · subst h10
        rcases hrows : (descendants (DNode.elem "table" acc cc)).filter
            (fun d => tagOf d == some "tr") with _ | ⟨r0, rest⟩
        · refine ⟨by simp [processNode, hrows, addSpace]; linarith, ?_⟩
          intro ev hev
          simp [processNode, hrows] at hev
        · have hrh1 : (6 : ℚ) ≤ getLineHeight FONT_SIZE_BODY + 12 := by
            norm_num [getLineHeight, FONT_SIZE_BODY]
          have hcap : getLineHeight FONT_SIZE_BODY + 12 ≤ surf.pageHeight - 2 * MARGIN := by
            rw [hM]; norm_num [getLineHeight, FONT_SIZE_BODY]; linarith
          obtain ⟨ht1, ht2⟩ := tableRows_ok surf
            ((surf.pageWidth - MARGIN * 2) / (jsOrOne (cellsOf r0).length : ℚ))
            (getLineHeight FONT_SIZE_BODY + 12) (jsOrOne (cellsOf r0).length)
            (r0 :: rest) { s with y := s.y + 10 } hrh1 hcap (by simp only []; linarith)
          refine ⟨?_, ?_⟩
          · simp [processNode, hrows, addSpace]
            linarith [ht1]
          · intro ev hev
            simp [processNode, hrows, addSpace] at hev
            exact ht2 ev hev
      by_cases h11 : t = "hr"
      · subst h11
        have hcap5 : (5 : ℚ) ≤ surf.pageHeight - 2 * MARGIN := by rw [hM]; linarith
        have hcy := checkPageBreak_y_ge surf 5 { s with y := s.y + 15 }
          (by simp only []; linarith)
        have hcp := checkPageBreak_post surf 5 { s with y := s.y + 15 } hcap5
        refine ⟨?_, ?_⟩
        · simp [processNode, addSpace]
          linarith [hcy]
        · intro ev hev
          simp [processNode, addSpace] at hev
          rcases hev with hev | hev
          · exact checkPageBreak_evs_ok _ _ _ ev hev
          · subst hev
            exact Or.inr ⟨hcy, by linarith, hcy, by linarith⟩
      · -- default: recurse into children
        obtain ⟨hc1, hc2⟩ := hPC t s hy
        have hb : processNode surf par (DNode.elem t acc cc) s = processChildren surf t cc s := by
          simp [processNode, h1, h2, h3, h4a, h4b, h4c, h5, h6a, h6b, h7, h8, h9, h10, h11]
        rw [hb]
        exact ⟨hc1, hc2⟩

theorem PBnode_all (surf : Surface) (hH : 200 ≤ surf.pageHeight) (n : DNode) :
    PBnode surf n :=
  PBnode_all_aux surf hH (sizeOf n) n le_rfl

/-- C2 (amended): `checkPageBreak` appends a page and resets the cursor to
the top margin exactly when the cursor plus the needed height would pass
`pageHeight - MARGIN`; and on any page at least 200 points tall, every
drawing operation the layout engine emits satisfies `okEv` — it lies within
`[MARGIN, pageHeight - MARGIN]` and was bound-checked before emission —
except the two operations `okEv` exempts: the code-block background
rectangle (its entry check is capped at 100 points) and the blockquote rule
(drawn at stroke width 3 from a saved cursor position), which can leave the
band, as the counterexample shows. -/
theorem claim_c2_amended (surf : Surface) (hH : 200 ≤ surf.pageHeight) :
    (∀ (h : ℚ) (s : St),
      (s.y + h > surf.pageHeight - MARGIN →
        checkPageBreak surf h s = ({ s with y := MARGIN }, [Ev.addPage])) ∧
      (s.y + h ≤ surf.pageHeight - MARGIN → checkPageBreak surf h s = (s, []))) ∧
    (∀ (ns : List DNode), ∀ ev ∈ (renderToPdf surf ns).2, okEv surf ev) := by
  constructor
  · intro h s
    constructor
    · intro hgt
      simp [checkPageBreak, hgt]
    · intro hle
      simp [checkPageBreak, not_lt.mpr hle]
  · intro ns ev hev
    have := PBchildren_of surf ns (fun c _ => PBnode_all surf hH c) "div" initialSt
      (by simp [initialSt])
    exact this.2 ev hev

/-- Witness for C2 (amended) on a letter page: the text run a paragraph
emits at the top of the page satisfies the in-band predicate. -/
theorem claim_c2_witness :
    okEv letterSurf (Ev.text "hi" 50 50 "helvetica" "normal" FONT_SIZE_BODY (0, 0, 0)) :=
  (claim_c2_amended letterSurf (by norm_num [letterSurf])).2
    [DNode.elem "p" [] [DNode.text "hi"]]
    (Ev.text "hi" 50 50 "helvetica" "normal" FONT_SIZE_BODY (0, 0, 0))
    (by simp [renderToPdf, processNode, processChildren, initialSt, letterSurf, renderText,
          renderLines, checkPageBreak, addSpace, getLineHeight, MARGIN, FONT_SIZE_BODY,
          extractText, extractTextL, jsTrim, jsTrimL, isJsSpace, fontStyleOf])

/-- Counterexample for C2 as stated: rendering the blockquote `> q` on a
fresh letter page emits its left-rule line with top vertical coordinate
`58 − 10 = 48`, strictly below the 50-point top margin — a drawing operation
outside `[margin, pageHeight − margin]`. -/
theorem claim_c2_counterexample :
    (renderToPdf letterSurf [DNode.elem "blockquote" [] [DNode.text "q"]]).2
      = [Ev.text "q" 70 58 "helvetica" "italic" FONT_SIZE_BODY (100, 100, 100),
         Ev.line 58 48 58 (342/5) (180, 180, 180) 3]
    ∧ (48 : ℚ) < MARGIN := by
  constructor
  · simp [renderToPdf, processNode, processChildren, initialSt, letterSurf, renderText,
      renderLines, checkPageBreak, addSpace, getLineHeight, MARGIN, FONT_SIZE_BODY,
      extractText, extractTextL, jsTrim, jsTrimL, isJsSpace, fontStyleOf]
    norm_num
  · norm_num [MARGIN]
